import Mathlib

/-!
# Verification of the `matematicke_vyrazy` arithmetic-drill core

Shallow embedding of `src/matematicke_vyrazy/script.js`:
tokenizer (`tokenizeExpression`), expression evaluator
(`evaluateExpression`), equation checker (`evaluateEquationString`),
field grouper (`equationIdToInputMap`) and grading pass
(`computeEquations`).

Modelling conventions:
* JavaScript numbers are modelled exactly: a finite value is a rational
  (`ℚ`), and the IEEE specials `Infinity`, `-Infinity`, `NaN` are explicit
  constructors (`-0` is identified with `0`; double rounding is idealised
  away — all values reachable in the claims are exactly representable).
* `Math.pow` with a finite non-integer exponent produces an irrational
  value in general, which has no exact counterpart in this model; that one
  case is mapped to the NaN sentinel (no claim exercises it).
* Locale-sensitive pieces (`localeCompare`) are modelled as code-point
  comparison, which agrees with the default locale on the digit-plus-
  lowercase-letter identifiers this program uses.
-/

/-!
The standard `ℚ` arithmetic operations from Batteries are `@[irreducible]`,
which prevents kernel evaluation (`decide`) of concrete runs.  The operations
below are plain reducible definitions built on `Rat.divInt`; each is proved
equal to the corresponding standard operation (lemmas `qadd_eq` …), so the
theorems can still be stated with ordinary `+ - * /` on `ℚ`.
-/

/-- Reducible rational addition. -/
def qadd (a b : ℚ) : ℚ := Rat.divInt (a.num * b.den + b.num * a.den) (a.den * b.den)

/-- Reducible rational negation. -/
def qneg (a : ℚ) : ℚ := Rat.divInt (-a.num) a.den

/-- Reducible rational subtraction. -/
def qsub (a b : ℚ) : ℚ := qadd a (qneg b)

/-- Reducible rational multiplication. -/
def qmul (a b : ℚ) : ℚ := Rat.divInt (a.num * b.num) (a.den * b.den)

/-- Reducible rational division. -/
def qdiv (a b : ℚ) : ℚ := Rat.divInt (a.num * b.den) (a.den * b.num)

/-- Reducible rational absolute value. -/
def qabs (a : ℚ) : ℚ := Rat.divInt (a.num.natAbs : ℤ) a.den

/-- Reducible integer power of a rational (`a ^ n` for `a ≠ 0`). -/
def qpowz (a : ℚ) (n : ℤ) : ℚ :=
  if 0 ≤ n then Rat.divInt (a.num ^ n.toNat) ((a.den : ℤ) ^ n.toNat)
  else Rat.divInt ((a.den : ℤ) ^ (-n).toNat) (a.num ^ (-n).toNat)

/-- A JavaScript number: an exact rational, `Infinity`, `-Infinity` or `NaN`. -/
inductive JsNum where
  | num (q : ℚ)
  | inf
  | ninf
  | nan
deriving DecidableEq, Repr

namespace JsNum

/-- Truncating division of a rational (JS `Math.trunc(a/b)` built into `%`):
`Int.tdiv` truncates toward zero, matching JS. -/
def jtrunc (q : ℚ) : ℤ := q.num.tdiv (q.den : ℤ)

/-- JS unary negation. -/
def jneg : JsNum → JsNum
  | num q => num (qneg q)
  | inf => ninf
  | ninf => inf
  | nan => nan

/-- JS `+` on numbers. -/
def jadd : JsNum → JsNum → JsNum
  | nan, _ => nan
  | _, nan => nan
  | inf, ninf => nan
  | ninf, inf => nan
  | inf, _ => inf
  | _, inf => inf
  | ninf, _ => ninf
  | _, ninf => ninf
  | num a, num b => num (qadd a b)

/-- JS `-` on numbers (`a - b` behaves as `a + (-b)`). -/
def jsub (a b : JsNum) : JsNum := jadd a (jneg b)

/-- JS `*` on numbers. -/
def jmul : JsNum → JsNum → JsNum
  | nan, _ => nan
  | _, nan => nan
  | num a, num b => num (qmul a b)
  | num a, inf => if a = 0 then nan else if 0 < a then inf else ninf
  | num a, ninf => if a = 0 then nan else if 0 < a then ninf else inf
  | inf, num b => if b = 0 then nan else if 0 < b then inf else ninf
  | ninf, num b => if b = 0 then nan else if 0 < b then ninf else inf
  | inf, inf => inf
  | inf, ninf => ninf
  | ninf, inf => ninf
  | ninf, ninf => inf

/-- JS `/` on numbers (division by zero gives a signed infinity, `0/0` NaN). -/
def jdiv : JsNum → JsNum → JsNum
  | nan, _ => nan
  | _, nan => nan
  | num a, num b =>
      if b = 0 then (if a = 0 then nan else if 0 < a then inf else ninf)
      else num (qdiv a b)
  | num _, inf => num 0
  | num _, ninf => num 0
  | inf, num b => if 0 ≤ b then inf else ninf
  | ninf, num b => if 0 ≤ b then ninf else inf
  | inf, inf => nan
  | inf, ninf => nan
  | ninf, inf => nan
  | ninf, ninf => nan

/-- JS `Math.floor`. -/
def jfloor : JsNum → JsNum
  | num q => num ((⌊q⌋ : ℤ) : ℚ)
  | inf => inf
  | ninf => ninf
  | nan => nan

/-- JS native remainder `%` (sign of the dividend): `a - b * trunc(a/b)`. -/
def jrem : JsNum → JsNum → JsNum
  | nan, _ => nan
  | _, nan => nan
  | inf, _ => nan
  | ninf, _ => nan
  | num a, inf => num a
  | num a, ninf => num a
  | num a, num b => if b = 0 then nan else num (qsub a (qmul b ((jtrunc (qdiv a b) : ℤ) : ℚ)))

/-- Is the rational an odd integer (used by `Math.pow` on `-Infinity`). -/
def isOddInt (q : ℚ) : Bool := q.den = 1 && q.num % 2 ≠ 0

/-- JS exponentiation `**` (ES `Number::exponentiate`).  The single case of a
finite non-zero base, negative or not, with a finite non-integer exponent
generally has an irrational value; the model returns the NaN sentinel there
(negative base: NaN also in JS; positive base: model boundary, unexercised). -/
def jpow (x y : JsNum) : JsNum :=
  match y with
  | nan => nan
  | inf =>
      match x with
      | nan => nan
      | inf => inf
      | ninf => inf
      | num a => if a = 1 ∨ a = -1 then nan else if 1 < |a| then inf else num 0
  | ninf =>
      match x with
      | nan => nan
      | inf => num 0
      | ninf => num 0
      | num a => if a = 1 ∨ a = -1 then nan else if 1 < |a| then num 0 else inf
  | num q =>
      if q = 0 then num 1
      else
        match x with
        | nan => nan
        | inf => if 0 < q then inf else num 0
        | ninf => if 0 < q then (if isOddInt q then ninf else inf) else num 0
        | num a =>
            if a = 0 then (if 0 < q then num 0 else inf)
            else if q.den = 1 then num (qpowz a q.num)
            else nan

/-- JS `Math.abs`. -/
def jabs : JsNum → JsNum
  | num q => num (qabs q)
  | inf => inf
  | ninf => inf
  | nan => nan

/-- JS `<` on numbers (`NaN` compares false with everything). -/
def jlt : JsNum → JsNum → Bool
  | nan, _ => false
  | _, nan => false
  | num a, num b => a < b
  | inf, _ => false
  | ninf, ninf => false
  | ninf, _ => true
  | num _, inf => true
  | num _, ninf => false

end JsNum

/-- A token produced by `tokenizeExpression`: a number or an operator symbol
(kept as the literal string the source pushes: `"+" "-" "*" "/" "//" "**" "%"`). -/
inductive Token where
  | num (v : JsNum)
  | op (s : String)
deriving DecidableEq, Repr

/-- Numeric value of a digit string (most significant first). -/
def digitsToNat (l : List Char) : ℕ := l.foldl (fun n c => 10 * n + (c.toNat - 48)) 0

/-- `parseFloat` restricted to the digit/decimal-point runs the tokenizer
produces: parses the longest prefix of shape `digits [. digits]`; a run with
no leading digits still parses `.digits`; a run with no digits at all is NaN.
Anything after the parsed prefix (e.g. a second decimal point) is ignored. -/
def parseFloatRun (run : List Char) : JsNum :=
  let ip := run.takeWhile Char.isDigit
  match run.dropWhile Char.isDigit with
  | '.' :: r2 =>
      let fp := r2.takeWhile Char.isDigit
      if ip.isEmpty && fp.isEmpty then JsNum.nan
      else JsNum.num (Rat.divInt (digitsToNat ip * 10 ^ fp.length + digitsToNat fp) (10 ^ fp.length))
  | _ => if ip.isEmpty then JsNum.nan else JsNum.num (digitsToNat ip)

/-- Is the character part of a numeric run (`/[\d.]/`). -/
def isNumChar (c : Char) : Bool := c.isDigit || c = '.'

/-- Emit the pending numeric run, if any, as one number token. -/
def flushRun (acc : List Char) : List Token :=
  if acc.isEmpty then [] else [Token.num (parseFloatRun acc)]

/-- The scanning loop of `tokenizeExpression`, restructured as recursion with
an accumulator for the numeric run being read (the source consumes a whole
run with an inner `while` and pushes its `parseFloat` immediately; here the
run is flushed when a non-numeric character or the end of input is reached —
the emitted token list is the same).  Two-character operators `//` and `**`
are recognised before single-character ones; any other character is skipped. -/
def tokAux : List Char → List Char → List Token
  | acc, [] => flushRun acc
  | acc, [c] =>
    if isNumChar c then flushRun (acc ++ [c])
    else
      flushRun acc ++
        (if c = '+' || c = '-' || c = '*' || c = '/' || c = '%' then
          [Token.op (String.mk [c])]
         else [])
  | acc, c :: d :: rest =>
    if isNumChar c then tokAux (acc ++ [c]) (d :: rest)
    else
      flushRun acc ++
        (if c = '/' && d = '/' then Token.op "//" :: tokAux [] rest
         else if c = '*' && d = '*' then Token.op "**" :: tokAux [] rest
         else if c = '+' || c = '-' || c = '*' || c = '/' || c = '%' then
           Token.op (String.mk [c]) :: tokAux [] (d :: rest)
         else tokAux [] (d :: rest))

/-- `tokenizeExpression`: strip all whitespace, then scan into tokens. -/
def tokenizeExpression (s : String) : List Token :=
  tokAux [] (s.data.filter (fun c => !c.isWhitespace))

/-- The numeric payload of `tokens[i]` for an integer index: out-of-range JS
indexing yields `undefined`, and the source checks `typeof ... !== 'number'`,
so anything but an in-range number token is `none`. -/
def numAt (ts : List Token) (i : ℤ) : Option JsNum :=
  if i < 0 then none
  else
    match ts.get? i.toNat with
    | some (Token.num v) => some v
    | _ => none

/-- Index of the last token satisfying `p` (JS `lastIndexOf`). -/
def lastIdx (p : Token → Bool) : List Token → Option ℕ
  | [] => none
  | t :: rest =>
    match lastIdx p rest with
    | some j => some (j + 1)
    | none => if p t then some 0 else none

/-- Index of the first token satisfying `p` (JS `findIndex`). -/
def firstIdx (p : Token → Bool) : List Token → Option ℕ
  | [] => none
  | t :: rest => if p t then some 0 else (firstIdx p rest).map (· + 1)

/-- Is the token the `**` operator (string comparison, as in JS). -/
def isPowOp : Token → Bool
  | Token.op s => s == "**"
  | _ => false

/-- Is the token one of `mulOps = ['*', '/', '//', '%']`. -/
def isMulOp : Token → Bool
  | Token.op s => s == "*" || s == "/" || s == "//" || s == "%"
  | _ => false

/-- Is the token `'+'` or `'-'`. -/
def isAddOp : Token → Bool
  | Token.op s => s == "+" || s == "-"
  | _ => false

/-- One fold step of a reduction loop: read the neighbours `tokens[idx-1]` and
`tokens[idx+1]`; if either is missing or not a number, the evaluator returns
NaN (`none` here); otherwise splice the three elements `idx-1 .. idx+1` into
the single result token (`tokens.slice(0, idx-1).concat(result).concat(tokens.slice(idx+2))`). -/
def foldAt (ts : List Token) (idx : ℕ) (f : JsNum → JsNum → JsNum) : Option (List Token) :=
  match numAt ts ((idx : ℤ) - 1), numAt ts ((idx : ℤ) + 1) with
  | some a, some b => some (ts.take (idx - 1) ++ Token.num (f a b) :: ts.drop (idx + 2))
  | _, _ => none

/-- The multiplicative tier's operator dispatch:
`*` is product, `/` quotient, `//` is `Math.floor(a / b)`, and `%` is the
normalised modulo `((a % b) + b) % b`.  The final branch is `%`: the selector
only ever yields one of the four operators. -/
def applyMulOp (t : Token) (a b : JsNum) : JsNum :=
  if t = Token.op "*" then JsNum.jmul a b
  else if t = Token.op "/" then JsNum.jdiv a b
  else if t = Token.op "//" then JsNum.jfloor (JsNum.jdiv a b)
  else JsNum.jrem (JsNum.jadd (JsNum.jrem a b) b) b

/-- The additive tier's operator dispatch (`op === '+' ? a + b : a - b`). -/
def applyAddOp (t : Token) (a b : JsNum) : JsNum :=
  if t = Token.op "+" then JsNum.jadd a b else JsNum.jsub a b

/-- One precedence tier's `while` loop: `sel` locates the next operator of the
tier (`none` once the tier is exhausted, ending the loop), and each successful
fold replaces three tokens with one.  The loop is written with explicit fuel to
stay structurally recursive (hence kernel-evaluable); every fold shortens the
list by two, so any fuel `> ts.length` gives the loop's exact behaviour
(`runPass_fuel` below) and the fuel-exhaustion branch is unreachable from
`evaluateTokens`. -/
def runPass (sel : List Token → Option ℕ) (app : Token → JsNum → JsNum → JsNum) :
    ℕ → List Token → Option (List Token)
  | 0, _ => none
  | fuel + 1, ts =>
    match sel ts with
    | none => some ts
    | some idx =>
      match foldAt ts idx (app (ts.getD idx (Token.op ""))) with
      | some ts2 => runPass sel app fuel ts2
      | none => none

/-- Selector of the exponentiation pass: the LAST `**` (JS `lastIndexOf('**')`;
the loop guard `tokens.includes('**')` is equivalent to it returning an index). -/
def powSel (ts : List Token) : Option ℕ := lastIdx isPowOp ts

/-- Selector of the multiplicative pass: the FIRST of `* / // %` (JS `findIndex`;
the guard `tokens.some(...)` is equivalent to it returning an index). -/
def mulSel (ts : List Token) : Option ℕ := firstIdx isMulOp ts

/-- Selector of the additive pass: the FIRST of `+ -`. -/
def addSel (ts : List Token) : Option ℕ := firstIdx isAddOp ts

/-- The `**` while-loop. -/
def powPass (ts : List Token) : Option (List Token) :=
  runPass powSel (fun _ a b => JsNum.jpow a b) (ts.length + 1) ts

/-- The `* / // %` while-loop. -/
def mulPass (ts : List Token) : Option (List Token) :=
  runPass mulSel applyMulOp (ts.length + 1) ts

/-- The `+ -` while-loop. -/
def addPass (ts : List Token) : Option (List Token) :=
  runPass addSel applyAddOp (ts.length + 1) ts

/-- The three reduction passes in source order. -/
def runPasses (ts : List Token) : Option (List Token) :=
  (powPass ts).bind fun ts1 => (mulPass ts1).bind addPass

/-- A JavaScript value as returned by `evaluateExpression`: the final
`return tokens[0]` yields a number in every reachable case, but JS would
return the raw token (an operator string) or `undefined` (empty list), so the
model keeps those cases distinct rather than collapsing them into a number. -/
inductive JsVal where
  | num (v : JsNum)
  | str (s : String)
  | undef
deriving DecidableEq, Repr

/-- The JS value of `tokens[0]`. -/
def tokenVal : Option Token → JsVal
  | some (Token.num v) => JsVal.num v
  | some (Token.op s) => JsVal.str s
  | none => JsVal.undef

/-- `evaluateExpression` on an already-tokenized sequence: empty input is NaN;
a single bare number token is returned directly without entering the passes;
otherwise the three passes run and `tokens[0]` of the final list is returned
(NaN if some fold step aborted). -/
def evaluateTokens (ts : List Token) : JsVal :=
  match ts with
  | [] => JsVal.num JsNum.nan
  | [Token.num v] => JsVal.num v
  | _ =>
    match runPasses ts with
    | none => JsVal.num JsNum.nan
    | some final => tokenVal final.head?

/-- `evaluateExpression` on a character list (the string's contents). -/
def evaluateExpressionL (l : List Char) : JsVal :=
  evaluateTokens (tokAux [] (l.filter (fun c => !c.isWhitespace)))

/-- `evaluateExpression(exprStr)`: tokenize, then reduce. -/
def evaluateExpression (s : String) : JsVal := evaluateExpressionL s.data

/-- JS `String.prototype.split('=')` on the character list. -/
def splitEq : List Char → List (List Char)
  | [] => [[]]
  | c :: rest =>
    let r := splitEq rest
    if c = '=' then [] :: r
    else
      match r with
      | [] => [[c]]
      | p :: ps => (c :: p) :: ps

/-- JS `String.prototype.trim` (strip whitespace from both ends). -/
def jsTrim (l : List Char) : List Char :=
  ((l.dropWhile Char.isWhitespace).reverse.dropWhile Char.isWhitespace).reverse

/-- Global `isNaN` applied to what `evaluateExpression` returned: true on the
NaN number; an operator string or `undefined` also coerces to NaN (those cases
are unreachable — the evaluator is shown to return numbers — but kept faithful). -/
def jsIsNaN : JsVal → Bool
  | JsVal.num JsNum.nan => true
  | JsVal.num _ => false
  | JsVal.str _ => true
  | JsVal.undef => true

/-- `ToNumber` coercion used by the subtraction in the tolerance check. -/
def toNumJ : JsVal → JsNum
  | JsVal.num v => v
  | _ => JsNum.nan

/-- The tolerance `1e-9` of the equation checker. -/
def tol : ℚ := Rat.divInt 1 1000000000

/-- `evaluateEquationString(str)`: split on `'='`, trim the parts, require
exactly two non-empty sides, evaluate both, reject NaN sides, and compare
with absolute tolerance `Math.abs(left - right) < 1e-9`. -/
def evaluateEquationString (s : String) : Bool :=
  match (splitEq s.data).map jsTrim with
  | [p0, p1] =>
    if p0 = [] || p1 = [] then false
    else
      let left := evaluateExpressionL p0
      let right := evaluateExpressionL p1
      if jsIsNaN left || jsIsNaN right then false
      else JsNum.jlt (JsNum.jabs (JsNum.jsub (toNumJ left) (toNumJ right))) (JsNum.num tol)
  | _ => false

/-- Snapshot of one input element of the container, in DOM order:
`value` (current text), `placeholder`, the `unknown` class (not disabled),
and the `data-equation` tag string (e.g. `"1c"` or `"1c 2a"`). -/
structure InputField where
  value : String
  placeholder : String
  unknown : Bool
  equation : String
deriving DecidableEq, Repr

/-- Default used only for the (in-range) list indexing below. -/
def dfltField : InputField := ⟨"", "", false, ""⟩

/-- `trim` on strings. -/
def jsTrimS (s : String) : String := String.mk (jsTrim s.data)

/-- Split on single whitespace characters.  The source splits the already
trimmed tag on `/\s+/`; runs of whitespace here produce extra empty pieces,
which the consumer (`equationIdToInputMap`) skips with the same `if (key)`
guard the source applies, so the resulting map is identical. -/
def splitWsRaw : List Char → List (List Char)
  | [] => [[]]
  | c :: rest =>
    let r := splitWsRaw rest
    if c.isWhitespace then [] :: r
    else
      match r with
      | [] => [[c]]
      | p :: ps => (c :: p) :: ps

/-- JS `Map.set`: replace the value of an existing key in place (keeping its
original insertion position), otherwise append. -/
def mapSet (m : List (String × ℕ)) (k : String) (v : ℕ) : List (String × ℕ) :=
  if m.any (fun p => p.1 == k) then m.map (fun p => if p.1 = k then (k, v) else p)
  else m ++ [(k, v)]

/-- JS `Map.get`. -/
def mapGet (m : List (String × ℕ)) (k : String) : Option ℕ :=
  (m.find? (fun p => p.1 == k)).map (fun p => p.2)

/-- `equationIdToInputMap`: walk the inputs in DOM order; skip an empty
(trimmed) tag; split the tag on whitespace and map every non-empty id to the
input's index (last writer wins).  Inputs are identified by their index in the
snapshot list. -/
def equationIdToInputMap (fields : List InputField) : List (String × ℕ) :=
  fields.enum.foldl
    (fun m p =>
      let eq := jsTrimS p.2.equation
      if eq = "" then m
      else
        (splitWsRaw eq.data).foldl
          (fun m idc =>
            let key := jsTrim idc
            if key = [] then m else mapSet m (String.mk key) p.1)
          m)
    []

/-- The equation-number key of a cell id: `id.replace(/\D/g, '') || id.charAt(0)`
(digits of the id, or its first character when it has no digits). -/
def eqKey (id : String) : String :=
  let d := id.data.filter Char.isDigit
  if d = [] then String.mk (id.data.take 1) else String.mk d

/-- `[...new Set(l)]`: deduplicate keeping first occurrences, in order. -/
def dedupFirst (l : List String) : List String :=
  l.foldl (fun acc k => if k ∈ acc then acc else acc ++ [k]) []

/-- Code-point lexicographic `≤` on character lists.  The source sorts cell
ids with `(a, b) => a.localeCompare(b)`; on the digit-plus-lowercase-letter
ids this program uses, the default locale's order coincides with code-point
order. -/
def lexLe : List Char → List Char → Bool
  | [], _ => true
  | _ :: _, [] => false
  | a :: as, b :: bs =>
    if a.toNat < b.toNat then true
    else if b.toNat < a.toNat then false
    else lexLe as bs

/-- Insertion step of the id sort. -/
def insertLe (x : String) : List String → List String
  | [] => [x]
  | y :: ys => if lexLe x.data y.data then x :: y :: ys else y :: insertLe x ys

/-- Sort a list of (distinct) keys ascending. -/
def sortLe (l : List String) : List String := l.foldr insertLe []

/-- The map's keys, in insertion order (JS `map.keys()`). -/
def mapKeys (fields : List InputField) : List String := (equationIdToInputMap fields).map (fun p => p.1)

/-- The distinct equation numbers.  The source additionally sorts them with a
locale- and numeric-aware comparison before processing; the processing order
of groups does not affect counts, statuses, or the verdict (each group's
contribution is added independently), so the model keeps first-occurrence
order. -/
def eqNumbers (fields : List InputField) : List String := dedupFirst ((mapKeys fields).map eqKey)

/-- The cell ids of one equation group, sorted (`ids.filter(...).sort(localeCompare)`). -/
def groupIds (fields : List InputField) (k : String) : List String :=
  sortLe ((mapKeys fields).filter (fun id => eqKey id == k))

/-- The group's cells as input indices (`ids.map(id => map.get(id)).filter(c => c.input)`). -/
def groupCells (fields : List InputField) (k : String) : List ℕ :=
  (groupIds fields k).filterMap (mapGet (equationIdToInputMap fields))

/-- The text a cell contributes: `(input.value || input.placeholder || '').toString().trim()`. -/
def cellText (fields : List InputField) (i : ℕ) : List Char :=
  let f := fields.getD i dfltField
  jsTrim (if f.value = "" then f.placeholder.data else f.value.data)

/-- Normalise the alternate glyphs: `×` to `*` and `÷` to `/`. -/
def replaceGlyphs (l : List Char) : List Char :=
  l.map (fun c => if c = '×' then '*' else if c = '÷' then '/' else c)

/-- The assembled equation string of a group (cell texts joined, glyphs normalised). -/
def groupStr (fields : List InputField) (k : String) : List Char :=
  replaceGlyphs (((groupCells fields k).map (cellText fields)).flatten)

/-- Does the assembled string contain `'='` (groups without it are skipped). -/
def groupHasEq (fields : List InputField) (k : String) : Bool := groupStr fields k |>.contains '='

/-- The group's unknown cells (`cells.filter(c => c.input.classList.contains('unknown'))`). -/
def groupUnknowns (fields : List InputField) (k : String) : List ℕ :=
  (groupCells fields k).filter (fun i => (fields.getD i dfltField).unknown)

/-- Does some unknown cell of the group have empty trimmed `value`. -/
def groupHasEmpty (fields : List InputField) (k : String) : Bool :=
  (groupUnknowns fields k).any (fun i => jsTrim (fields.getD i dfltField).value.data == [])

/-- Does the group count as correct: no empty unknown and the checker accepts. -/
def groupCorrect (fields : List InputField) (k : String) : Bool :=
  !groupHasEmpty fields k && evaluateEquationString (String.mk (groupStr fields k))

/-- The equation numbers whose assembled string contains `'='` (the loop
`continue`s past the others before counting anything). -/
def evaluableKeys (fields : List InputField) : List String :=
  (eqNumbers fields).filter (groupHasEq fields)

/-- `totalCount` of an input: the source increments it once per occurrence of
the input among a group's unknowns, for every group that reaches the counting
code; summing the per-group occurrences is the same accumulation. -/
def totalCount (fields : List InputField) (i : ℕ) : ℕ :=
  (((evaluableKeys fields).map (fun k => (groupUnknowns fields k).count i))).sum

/-- `correctCount`: as `totalCount` but only over groups that passed the
`!hasEmpty && evaluateEquationString(eqStr)` test. -/
def correctCount (fields : List InputField) (i : ℕ) : ℕ :=
  ((((evaluableKeys fields).filter (groupCorrect fields)).map
    (fun k => (groupUnknowns fields k).count i))).sum

/-- `allUnknownInputs`: the set of unknown inputs of evaluable groups, in
insertion order (JS `Set` iterates insertion order; membership is what matters). -/
def allUnknownIdx (fields : List InputField) : List ℕ :=
  (((evaluableKeys fields).map (groupUnknowns fields)).flatten).foldl
    (fun acc i => if i ∈ acc then acc else acc ++ [i]) []

/-- The per-field grade, one constructor per branch of the colouring loop. -/
inductive Status where
  | empty
  | neutral
  | green
  | red
  | orange
deriving DecidableEq, Repr

/-- The `backgroundColor` string the loop assigns for each status. -/
def renderColor : Status → String
  | Status.empty => "red"
  | Status.neutral => ""
  | Status.green => "green"
  | Status.red => "red"
  | Status.orange => "orange"

/-- The branch the colouring loop takes for a tracked input: empty value is
`empty` (painted red); otherwise by `correctCount` vs `totalCount`. -/
def fieldStatus (fields : List InputField) (i : ℕ) : Status :=
  if jsTrim (fields.getD i dfltField).value.data = [] then Status.empty
  else
    let t := totalCount fields i
    let c := correctCount fields i
    if t = 0 then Status.neutral
    else if c = t then Status.green
    else if c = 0 then Status.red
    else Status.orange

/-- The status the grading pass assigns to input `i`: the colouring loop runs
over `allUnknownInputs` only, so any other input is left untouched (`none`). -/
def statusAt (fields : List InputField) (i : ℕ) : Option Status :=
  if i ∈ allUnknownIdx fields then some (fieldStatus fields i) else none

/-- The overall verdict of `computeEquations`: some tracked unknown exists,
and every tracked unknown is non-empty with `correctCount === totalCount`. -/
def computeEquations (fields : List InputField) : Bool :=
  !(allUnknownIdx fields).isEmpty &&
    (allUnknownIdx fields).all (fun i =>
      if jsTrim (fields.getD i dfltField).value.data = [] then false
      else correctCount fields i == totalCount fields i)

/-- Does the token sequence strictly alternate number/operator/…/number
(the claim's well-formedness notion)? -/
def altB : List Token → Bool
  | [] => false
  | [Token.num _] => true
  | Token.num _ :: Token.op _ :: rest => altB rest
  | _ => false

/-- The original claim C1's verdict, read literally from the spec's words:
at least one unknown field exists, every unknown field is non-empty, and
every unknown field's `correctCount` equals its `totalCount` — quantified
over ALL unknown fields of the snapshot, tracked by the pass or not. -/
def claimC1Verdict (fields : List InputField) : Bool :=
  (List.range fields.length).any (fun i => (fields.getD i dfltField).unknown) &&
  (List.range fields.length).all (fun i =>
    if (fields.getD i dfltField).unknown then
      decide (jsTrim (fields.getD i dfltField).value.data ≠ []) &&
        (correctCount fields i == totalCount fields i)
    else true)

/-! ### Theorems -/

theorem qadd_eq (a b : ℚ) : qadd a b = a + b := by
  conv_rhs => rw [← Rat.num_divInt_den a, ← Rat.num_divInt_den b]
  rw [Rat.divInt_add_divInt _ _ (by exact_mod_cast a.den_nz) (by exact_mod_cast b.den_nz), qadd]

theorem qneg_eq (a : ℚ) : qneg a = -a := by
  rw [qneg, ← Rat.neg_divInt, Rat.num_divInt_den]

theorem qsub_eq (a b : ℚ) : qsub a b = a - b := by
  rw [qsub, qadd_eq, qneg_eq, sub_eq_add_neg]

theorem qmul_eq (a b : ℚ) : qmul a b = a * b := by
  conv_rhs => rw [← Rat.num_divInt_den a, ← Rat.num_divInt_den b]
  rw [Rat.divInt_mul_divInt', qmul]

theorem qdiv_eq (a b : ℚ) : qdiv a b = a / b := by
  rw [div_eq_mul_inv]
  conv_rhs => rw [← Rat.num_divInt_den a, ← Rat.num_divInt_den b, Rat.inv_divInt']
  rw [Rat.divInt_mul_divInt', qdiv]

theorem qabs_eq (a : ℚ) : qabs a = |a| := by
  rcases abs_cases a with ⟨h1, h2⟩ | ⟨h1, h2⟩
  · rw [qabs, h1, Int.natAbs_of_nonneg (Rat.num_nonneg.mpr h2), Rat.num_divInt_den]
  · rw [qabs, h1, Int.ofNat_natAbs_of_nonpos (Int.le_of_lt (Rat.num_neg.mpr h2)),
      ← Rat.neg_divInt, Rat.num_divInt_den]

theorem qpowz_eq (a : ℚ) (n : ℤ) : qpowz a n = a ^ n := by
  rcases le_or_lt 0 n with hn | hn
  · rw [qpowz, if_pos hn, Rat.divInt_eq_div]
    push_cast
    rw [← div_pow, Rat.num_div_den, ← zpow_natCast, Int.toNat_of_nonneg hn]
  · rw [qpowz, if_neg (not_le.mpr hn), Rat.divInt_eq_div]
    push_cast
    rw [← div_pow]
    have hinv : ((a.den : ℚ) / (a.num : ℚ)) = a⁻¹ := by
      conv_rhs => rw [← Rat.num_div_den a]
      rw [inv_div]
    rw [hinv, inv_pow, ← zpow_natCast, ← zpow_neg,
      Int.toNat_of_nonneg (by omega : (0:ℤ) ≤ -n), neg_neg]


/-! ### Structural lemmas about the reduction loops -/

theorem numAt_some {ts : List Token} {i : ℤ} {v : JsNum} (h : numAt ts i = some v) :
    0 ≤ i ∧ i.toNat < ts.length ∧ ts.get? i.toNat = some (Token.num v) := by
  unfold numAt at h
  split at h
  · exact absurd h (by simp)
  · rename_i hi
    refine ⟨by omega, ?_⟩
    split at h
    · rename_i hg
      cases h
      refine ⟨?_, hg⟩
      by_contra hlen
      rw [List.get?_eq_none.mpr (by omega)] at hg
      exact Option.noConfusion hg
    · exact absurd h (by simp)

/-- A successful fold step consumes an operator with numeric neighbours on
both sides and shrinks the token list by exactly two elements. -/
theorem foldAt_shape {ts : List Token} {idx : ℕ} {f : JsNum → JsNum → JsNum}
    {ts2 : List Token} (h : foldAt ts idx f = some ts2) :
    1 ≤ idx ∧ idx + 1 < ts.length ∧ ts2.length + 2 = ts.length := by
  unfold foldAt at h
  split at h
  · rename_i a b h1 h2
    obtain ⟨hi1, hl1, _⟩ := numAt_some h1
    obtain ⟨hi2, hl2, _⟩ := numAt_some h2
    have hidx : 1 ≤ idx := by omega
    have hl1' : idx - 1 < ts.length := by
      have : ((idx : ℤ) - 1).toNat = idx - 1 := by omega
      omega
    have hl2' : idx + 1 < ts.length := by
      have : ((idx : ℤ) + 1).toNat = idx + 1 := by omega
      omega
    cases h
    refine ⟨hidx, hl2', ?_⟩
    simp [List.length_append, List.length_take, List.length_drop]
    omega
  · exact absurd h (by simp)

/-- The reduction loops are insensitive to the exact fuel once it exceeds the
list length: each iteration removes two tokens, so `length + 1` iterations
can never be reached.  This makes the fuel in `powPass`/`mulPass`/`addPass`
a faithful rendering of the unbounded `while` loops. -/
theorem runPass_fuel (sel : List Token → Option ℕ) (app : Token → JsNum → JsNum → JsNum) :
    ∀ fuel fuel' ts, ts.length < fuel → ts.length < fuel' →
      runPass sel app fuel ts = runPass sel app fuel' ts := by
  intro fuel
  induction fuel with
  | zero => intro fuel' ts h; omega
  | succ n ih =>
    intro fuel' ts h h'
    cases fuel' with
    | zero => omega
    | succ m =>
      simp only [runPass]
      cases hsel : sel ts with
      | none => rfl
      | some idx =>
        simp only [hsel]
        cases hfold : foldAt ts idx (app (ts.getD idx (Token.op ""))) with
        | none => simp [hfold]
        | some ts2 =>
          simp only [hfold]
          obtain ⟨_, _, hlen⟩ := foldAt_shape hfold
          exact ih m ts2 (by omega) (by omega)

/-- C9: `evaluateExpression` terminates on every input: each iteration of each
of the three reduction loops either aborts with the NaN sentinel at once (when
the selected operator lacks an in-range numeric neighbour on a side) or
replaces three tokens by one, strictly decreasing the list length — so a fuel
bound of `length + 1` captures the unbounded `while` loops exactly
(`runPass_fuel`), no loop can run forever, and the evaluator returns a value
on every token list. -/
theorem C9_evaluator_terminates :
    (∀ (ts : List Token) (idx : ℕ) (f : JsNum → JsNum → JsNum),
      foldAt ts idx f = none ∨
        ∃ ts2, foldAt ts idx f = some ts2 ∧ ts2.length + 2 = ts.length ∧ ts2.length < ts.length) ∧
    (∀ (sel : List Token → Option ℕ) (app : Token → JsNum → JsNum → JsNum) (fuel : ℕ)
      (ts : List Token), ts.length < fuel →
        runPass sel app fuel ts = runPass sel app (ts.length + 1) ts) ∧
    (∀ ts : List Token, ∃ v : JsVal, evaluateTokens ts = v) := by
  refine ⟨?_, ?_, fun ts => ⟨evaluateTokens ts, rfl⟩⟩
  · intro ts idx f
    cases hfold : foldAt ts idx f with
    | none => exact Or.inl rfl
    | some ts2 =>
      obtain ⟨_, _, hlen⟩ := foldAt_shape hfold
      exact Or.inr ⟨ts2, rfl, hlen, by omega⟩
  · intro sel app fuel ts h
    exact runPass_fuel sel app fuel (ts.length + 1) ts h (by omega)

/-- C9 witness: the dichotomy and the fuel bound at concrete inputs. -/
theorem C9_witness :
    (foldAt [Token.num (JsNum.num 1), Token.op "+", Token.num (JsNum.num 2)] 1 JsNum.jadd
        = none ∨
      ∃ ts2, foldAt [Token.num (JsNum.num 1), Token.op "+", Token.num (JsNum.num 2)] 1 JsNum.jadd
          = some ts2 ∧ ts2.length + 2 = 3 ∧ ts2.length < 3) ∧
    runPass addSel applyAddOp 9 [Token.num (JsNum.num 1), Token.op "+", Token.num (JsNum.num 2)]
      = runPass addSel applyAddOp 4 [Token.num (JsNum.num 1), Token.op "+", Token.num (JsNum.num 2)] :=
  ⟨C9_evaluator_terminates.1 _ 1 JsNum.jadd,
    C9_evaluator_terminates.2.1 addSel applyAddOp 9 _ (by decide)⟩

/-! ### Selector lemmas (JS `lastIndexOf` / `findIndex`) -/

theorem lastIdx_get {p : Token → Bool} :
    ∀ {ts : List Token} {idx : ℕ}, lastIdx p ts = some idx →
      ∃ t, ts.get? idx = some t ∧ p t = true := by
  intro ts
  induction ts with
  | nil => intro idx h; exact absurd h (by simp [lastIdx])
  | cons t rest ih =>
    intro idx h
    unfold lastIdx at h
    split at h
    · rename_i j hj
      cases h
      exact ih hj
    · rename_i hnone
      split at h
      · cases h
        rename_i hp
        exact ⟨t, rfl, hp⟩
      · exact absurd h (by simp)

theorem lastIdx_none {p : Token → Bool} :
    ∀ {ts : List Token}, lastIdx p ts = none → ∀ t ∈ ts, p t = false := by
  intro ts
  induction ts with
  | nil => intro _ t ht; cases ht
  | cons u rest ih =>
    intro h t ht
    unfold lastIdx at h
    split at h
    · exact absurd h (by simp)
    · rename_i hnone
      split at h
      · exact absurd h (by simp)
      · rename_i hp
        rcases ht with _ | ht
        · exact Bool.of_not_eq_true hp
        · exact ih hnone t (by assumption)

theorem lastIdx_last {p : Token → Bool} :
    ∀ {ts : List Token} {idx : ℕ}, lastIdx p ts = some idx →
      ∀ j, idx < j → ∀ u, ts.get? j = some u → p u = false := by
  intro ts
  induction ts with
  | nil => intro idx h; exact absurd h (by simp [lastIdx])
  | cons t rest ih =>
    intro idx h j hj u hu
    unfold lastIdx at h
    split at h
    · rename_i k hk
      cases h
      cases j with
      | zero => omega
      | succ j' => exact ih hk j' (by omega) u hu
    · rename_i hnone
      split at h
      · cases h
        cases j with
        | zero => omega
        | succ j' => exact lastIdx_none hnone u (List.get?_mem hu)
      · exact absurd h (by simp)

theorem firstIdx_get {p : Token → Bool} :
    ∀ {ts : List Token} {idx : ℕ}, firstIdx p ts = some idx →
      ∃ t, ts.get? idx = some t ∧ p t = true := by
  intro ts
  induction ts with
  | nil => intro idx h; exact absurd h (by simp [firstIdx])
  | cons t rest ih =>
    intro idx h
    unfold firstIdx at h
    split at h
    · cases h
      rename_i hp
      exact ⟨t, rfl, hp⟩
    · rcases Option.map_eq_some'.mp h with ⟨j, hj, rfl⟩
      exact ih hj

theorem firstIdx_first {p : Token → Bool} :
    ∀ {ts : List Token} {idx : ℕ}, firstIdx p ts = some idx →
      ∀ j u, j < idx → ts.get? j = some u → p u = false := by
  intro ts
  induction ts with
  | nil => intro idx h; exact absurd h (by simp [firstIdx])
  | cons t rest ih =>
    intro idx h j u hj hu
    unfold firstIdx at h
    split at h
    · cases h; omega
    · rename_i hp
      rcases Option.map_eq_some'.mp h with ⟨k, hk, rfl⟩
      cases j with
      | zero =>
        cases hu
        exact Bool.of_not_eq_true hp
      | succ j' => exact ih hk j' u (by omega) hu

theorem firstIdx_none {p : Token → Bool} :
    ∀ {ts : List Token}, firstIdx p ts = none → ∀ t ∈ ts, p t = false := by
  intro ts
  induction ts with
  | nil => intro _ t ht; cases ht
  | cons u rest ih =>
    intro h t ht
    unfold firstIdx at h
    split at h
    · exact absurd h (by simp)
    · rename_i hp
      rcases ht with _ | ht
      · exact Bool.of_not_eq_true hp
      · exact ih (by simpa using h) t (by assumption)

theorem isPowOp_iff {t : Token} : isPowOp t = true ↔ t = Token.op "**" := by
  cases t with
  | num v => simp [isPowOp]
  | op s => simp [isPowOp]

theorem isMulOp_iff {t : Token} :
    isMulOp t = true ↔
      t = Token.op "*" ∨ t = Token.op "/" ∨ t = Token.op "//" ∨ t = Token.op "%" := by
  cases t with
  | num v => simp [isMulOp]
  | op s =>
    simp only [isMulOp, Bool.or_eq_true, beq_iff_eq, Token.op.injEq]
    tauto

/-- C5: the exponentiation pass is right-associative: its selector always
picks the LAST remaining `**`, so a chain `a ** b ** c` evaluates to
`a ** (b ** c)` for all number tokens, and in particular
`evaluateExpression "2**3**2"` is `512`, not `64`. -/
theorem C5_pow_right_assoc :
    (∀ a b c : JsNum,
      evaluateTokens [Token.num a, Token.op "**", Token.num b, Token.op "**", Token.num c]
        = JsVal.num (JsNum.jpow a (JsNum.jpow b c))) ∧
    (∀ (ts : List Token) (idx : ℕ), powSel ts = some idx →
      ts.get? idx = some (Token.op "**") ∧
        ∀ j, idx < j → ts.get? j ≠ some (Token.op "**")) ∧
    evaluateExpression "2**3**2" = JsVal.num (JsNum.num 512) := by
  refine ⟨fun a b c => rfl, ?_, by decide⟩
  intro ts idx h
  obtain ⟨t, hget, hp⟩ := lastIdx_get h
  rw [isPowOp_iff] at hp
  subst hp
  refine ⟨hget, ?_⟩
  intro j hj hcon
  have := lastIdx_last h j hj _ hcon
  simp [isPowOp] at this

/-- C5 witness: the last-occurrence property and the value at the concrete
token list of `"2**3**2"` (whose `**`s sit at indices 1 and 3). -/
theorem C5_witness :
    (tokenizeExpression "2**3**2").get? 3 = some (Token.op "**") ∧
    (∀ j, 3 < j → (tokenizeExpression "2**3**2").get? j ≠ some (Token.op "**")) ∧
    evaluateExpression "2**3**2" = JsVal.num (JsNum.num 512) := by
  have h := C5_pow_right_assoc.2.1 (tokenizeExpression "2**3**2") 3 (by decide)
  exact ⟨h.1, h.2, C5_pow_right_assoc.2.2⟩

/-! ### The `%` normalisation computes the floor-modulo -/

/-- JS `Math.trunc`-style division used by `%` rounds toward zero: it is the
floor for non-negative arguments and the ceiling for negative ones. -/
theorem jtrunc_eq (q : ℚ) : JsNum.jtrunc q = if 0 ≤ q then ⌊q⌋ else ⌈q⌉ := by
  unfold JsNum.jtrunc
  rcases le_or_lt 0 q with h | h
  · rw [if_pos h, Rat.floor_def]
    exact Int.tdiv_eq_ediv (Rat.num_nonneg.mpr h) (by positivity)
  · rw [if_neg (not_le.mpr h)]
    have h1 : q.num.tdiv q.den = -((-q).num.tdiv (-q).den) := by
      rw [Rat.neg_num, Rat.neg_den, Int.neg_tdiv, neg_neg]
    rw [h1, Int.tdiv_eq_ediv (Rat.num_nonneg.mpr (by linarith)) (by positivity), ← Rat.floor_def,
      Int.floor_neg, neg_neg]

/-- Arithmetic core of the `%` normalisation: two truncating remainders with an
offset of `b` produce exactly the floor-modulo `a - b * ⌊a / b⌋`. -/
theorem truncmod_math (a b : ℚ) (hb : b ≠ 0) :
    (a - b * ((JsNum.jtrunc (a / b) : ℤ) : ℚ) + b)
        - b * ((JsNum.jtrunc ((a - b * ((JsNum.jtrunc (a / b) : ℤ) : ℚ) + b) / b) : ℤ) : ℚ)
      = a - b * ((⌊a / b⌋ : ℤ) : ℚ) := by
  set x := a / b with hx
  have hbx : b * x = a := by
    rw [hx, mul_comm, div_mul_cancel₀ _ hb]
  have hfr : a - b * ((⌊x⌋ : ℤ) : ℚ) = b * Int.fract x := by
    rw [Int.fract, mul_sub, hbx]
  rcases le_or_lt 0 x with hx0 | hx0
  · rw [jtrunc_eq, if_pos hx0]
    have harg : (a - b * ((⌊x⌋ : ℤ) : ℚ) + b) / b = Int.fract x + 1 := by
      rw [hfr]
      field_simp
      ring
    rw [harg, jtrunc_eq,
      if_pos (by linarith [Int.fract_nonneg x] : (0:ℚ) ≤ Int.fract x + 1),
      show (1 : ℚ) = ((1 : ℤ) : ℚ) by norm_num, Int.floor_add_int, Int.floor_fract]
    push_cast
    ring
  · rw [jtrunc_eq, if_neg (not_le.mpr hx0)]
    rcases eq_or_ne (Int.fract x) 0 with hf | hf
    · have hxe : x = ((⌊x⌋ : ℤ) : ℚ) := by
        rw [Int.fract] at hf
        linarith
      have hcf : (⌈x⌉ : ℤ) = ⌊x⌋ := by
        rw [hxe, Int.ceil_intCast, Int.floor_intCast]
      have hr0 : a - b * ((⌈x⌉ : ℤ) : ℚ) = 0 := by
        rw [hcf, hfr, hf, mul_zero]
      rw [hr0, zero_add, div_self hb, jtrunc_eq, if_pos (by norm_num : (0:ℚ) ≤ 1),
        Int.floor_one, hfr, hf, mul_zero]
      push_cast
      ring
    · have hcf : (⌈x⌉ : ℤ) = ⌊x⌋ + 1 := by
        have h1 : ⌈x⌉ ≤ ⌊x⌋ + 1 := Int.ceil_le_floor_add_one x
        have h2 : ⌊x⌋ ≤ ⌈x⌉ := Int.floor_le_ceil x
        have h3 : ⌈x⌉ ≠ ⌊x⌋ := by
          intro he
          apply hf
          have hle : x ≤ ((⌊x⌋ : ℤ) : ℚ) := by
            rw [← he]
            exact Int.le_ceil x
          have hge : ((⌊x⌋ : ℤ) : ℚ) ≤ x := Int.floor_le x
          rw [Int.fract]
          linarith
        omega
      have harg : (a - b * ((⌈x⌉ : ℤ) : ℚ) + b) / b = Int.fract x := by
        rw [hcf]
        have hnum : a - b * (((⌊x⌋ + 1 : ℤ)) : ℚ) + b = b * Int.fract x := by
          push_cast
          push_cast at hfr
          linarith
        rw [hnum, mul_comm, mul_div_assoc, div_self hb, mul_one]
      rw [harg, jtrunc_eq, if_pos (Int.fract_nonneg x), Int.floor_fract, hcf]
      push_cast
      ring

/-- The `%` branch of the multiplicative pass, `((a % b) + b) % b`, computed on
finite numbers with `b ≠ 0`, is the floor-modulo `a - b * ⌊a / b⌋`. -/
theorem jrem_norm (a b : ℚ) (hb : b ≠ 0) :
    JsNum.jrem (JsNum.jadd (JsNum.jrem (JsNum.num a) (JsNum.num b)) (JsNum.num b)) (JsNum.num b)
      = JsNum.num (a - b * ((⌊a / b⌋ : ℤ) : ℚ)) := by
  have inner : JsNum.jrem (JsNum.num a) (JsNum.num b)
      = JsNum.num (a - b * ((JsNum.jtrunc (a / b) : ℤ) : ℚ)) := by
    simp only [JsNum.jrem, if_neg hb, qsub_eq, qmul_eq, qdiv_eq]
  rw [inner]
  have hadd : JsNum.jadd (JsNum.num (a - b * ((JsNum.jtrunc (a / b) : ℤ) : ℚ))) (JsNum.num b)
      = JsNum.num (a - b * ((JsNum.jtrunc (a / b) : ℤ) : ℚ) + b) := by
    simp only [JsNum.jadd, qadd_eq]
  rw [hadd]
  simp only [JsNum.jrem, if_neg hb, qsub_eq, qmul_eq, qdiv_eq]
  rw [truncmod_math a b hb]

/-- Range of the floor-modulo: it shares the divisor's sign (or is zero). -/
theorem floormod_bounds (a b : ℚ) :
    (0 < b → 0 ≤ a - b * ((⌊a / b⌋ : ℤ) : ℚ) ∧ a - b * ((⌊a / b⌋ : ℤ) : ℚ) < b) ∧
    (b < 0 → b < a - b * ((⌊a / b⌋ : ℤ) : ℚ) ∧ a - b * ((⌊a / b⌋ : ℤ) : ℚ) ≤ 0) := by
  constructor
  · intro hb
    have hbx : b * (a / b) = a := by
      rw [mul_comm, div_mul_cancel₀ _ (ne_of_gt hb)]
    have hfr : a - b * ((⌊a / b⌋ : ℤ) : ℚ) = b * Int.fract (a / b) := by
      rw [Int.fract, mul_sub, hbx]
    rw [hfr]
    constructor
    · exact mul_nonneg (le_of_lt hb) (Int.fract_nonneg _)
    · calc b * Int.fract (a / b) < b * 1 := by
            exact mul_lt_mul_of_pos_left (Int.fract_lt_one _) hb
        _ = b := mul_one b
  · intro hb
    have hbx : b * (a / b) = a := by
      rw [mul_comm, div_mul_cancel₀ _ (ne_of_lt hb)]
    have hfr : a - b * ((⌊a / b⌋ : ℤ) : ℚ) = b * Int.fract (a / b) := by
      rw [Int.fract, mul_sub, hbx]
    rw [hfr]
    constructor
    · calc b = b * 1 := (mul_one b).symm
        _ < b * Int.fract (a / b) := by
            exact mul_lt_mul_of_neg_left (Int.fract_lt_one _) hb
    · exact mul_nonpos_of_nonpos_of_nonneg (le_of_lt hb) (Int.fract_nonneg _)

theorem isMulOp_op_iff {o : String} :
    isMulOp (Token.op o) = true ↔ o = "*" ∨ o = "/" ∨ o = "//" ∨ o = "%" := by
  simp only [isMulOp, Bool.or_eq_true, beq_iff_eq]
  tauto

/-- C6 (amended): in the multiplicative pass — which folds the FIRST remaining
occurrence of `* / // %`, making the tier left-associative — `/` computes the
true quotient, `//` computes `⌊a/b⌋`, and `%` computes `((a % b) + b) % b`,
which equals the floor-modulo `a - b * ⌊a/b⌋` and has the divisor's sign (or
is zero); the operation on `a = -7, b = 3` gives `2` (not `-1`), on
`a = -7, b = 2` gives `-4` for `//`, and `evaluateExpression "7//2" = 3`.
The expression STRINGS `"-7//2"` / `"-7%3"` of the original claim do not
evaluate to those values (see the counterexample): `-` is a binary operator,
so they are NaN; the amendment states the `-7` cases at the operation level
(a `-7` number token), as in the spec's own `a = -7, b = 3` phrasing. -/
theorem C6_multiplicative_tier :
    (∀ a b : ℚ, b ≠ 0 →
      evaluateTokens [Token.num (JsNum.num a), Token.op "/", Token.num (JsNum.num b)]
          = JsVal.num (JsNum.num (a / b)) ∧
      evaluateTokens [Token.num (JsNum.num a), Token.op "//", Token.num (JsNum.num b)]
          = JsVal.num (JsNum.num ((⌊a / b⌋ : ℤ) : ℚ)) ∧
      evaluateTokens [Token.num (JsNum.num a), Token.op "%", Token.num (JsNum.num b)]
          = JsVal.num (JsNum.num (a - b * ((⌊a / b⌋ : ℤ) : ℚ))) ∧
      (0 < b → 0 ≤ a - b * ((⌊a / b⌋ : ℤ) : ℚ) ∧ a - b * ((⌊a / b⌋ : ℤ) : ℚ) < b) ∧
      (b < 0 → b < a - b * ((⌊a / b⌋ : ℤ) : ℚ) ∧ a - b * ((⌊a / b⌋ : ℤ) : ℚ) ≤ 0)) ∧
    (∀ (a b c : JsNum) (o1 o2 : String),
      isMulOp (Token.op o1) = true → isMulOp (Token.op o2) = true →
      evaluateTokens [Token.num a, Token.op o1, Token.num b, Token.op o2, Token.num c]
        = JsVal.num (applyMulOp (Token.op o2) (applyMulOp (Token.op o1) a b) c)) ∧
    (∀ (ts : List Token) (idx : ℕ), mulSel ts = some idx →
      (∃ t, ts.get? idx = some t ∧ isMulOp t = true) ∧
        ∀ j u, j < idx → ts.get? j = some u → isMulOp u = false) ∧
    evaluateExpression "7//2" = JsVal.num (JsNum.num 3) ∧
    evaluateTokens [Token.num (JsNum.num (-7)), Token.op "//", Token.num (JsNum.num 2)]
      = JsVal.num (JsNum.num (-4)) ∧
    evaluateTokens [Token.num (JsNum.num (-7)), Token.op "%", Token.num (JsNum.num 3)]
      = JsVal.num (JsNum.num 2) := by
  refine ⟨?_, ?_, ?_, by decide, by decide, by decide⟩
  · intro a b hb
    refine ⟨?_, ?_, ?_, (floormod_bounds a b).1, (floormod_bounds a b).2⟩
    · show JsVal.num (JsNum.jdiv (JsNum.num a) (JsNum.num b)) = _
      simp only [JsNum.jdiv, if_neg hb, qdiv_eq]
    · show JsVal.num (JsNum.jfloor (JsNum.jdiv (JsNum.num a) (JsNum.num b))) = _
      simp only [JsNum.jdiv, if_neg hb, qdiv_eq, JsNum.jfloor]
    · show JsVal.num (JsNum.jrem (JsNum.jadd (JsNum.jrem (JsNum.num a) (JsNum.num b))
          (JsNum.num b)) (JsNum.num b)) = _
      rw [jrem_norm a b hb]
  · intro a b c o1 o2 h1 h2
    rcases isMulOp_op_iff.mp h1 with rfl | rfl | rfl | rfl <;>
      rcases isMulOp_op_iff.mp h2 with rfl | rfl | rfl | rfl <;> rfl
  · intro ts idx h
    exact ⟨firstIdx_get h, fun j u hj hu => firstIdx_first h j u hj hu⟩

/-- C6 counterexample: the claim's concrete string examples for negative
operands fail on the code — `evaluateExpression "-7//2"` is NaN, not `-4`
(the leading `-` is tokenized as a binary operator with no left operand), and
likewise `"-7%3"` is NaN, not `2`. -/
theorem C6_counterexample :
    evaluateExpression "-7//2" = JsVal.num JsNum.nan ∧
    evaluateExpression "-7//2" ≠ JsVal.num (JsNum.num (-4)) ∧
    evaluateExpression "-7%3" = JsVal.num JsNum.nan ∧
    evaluateExpression "-7%3" ≠ JsVal.num (JsNum.num 2) := by
  refine ⟨by decide, by decide, by decide, by decide⟩

/-- C6 witness: the amended theorem applied at `a = -7, b = 3` (for `%` and
its sign bound), at `a = 8, b = 2, c = 2` with `/` then `*` (left-association:
`8/2*2 = 8`), and at the first-occurrence selector on tokens of `"8/2*2"`. -/
theorem C6_witness :
    evaluateTokens [Token.num (JsNum.num (-7)), Token.op "%", Token.num (JsNum.num 3)]
        = JsVal.num (JsNum.num ((-7 : ℚ) - 3 * ((⌊(-7 : ℚ) / 3⌋ : ℤ) : ℚ))) ∧
    (0 ≤ (-7 : ℚ) - 3 * ((⌊(-7 : ℚ) / 3⌋ : ℤ) : ℚ) ∧
      (-7 : ℚ) - 3 * ((⌊(-7 : ℚ) / 3⌋ : ℤ) : ℚ) < 3) ∧
    evaluateTokens [Token.num (JsNum.num 8), Token.op "/", Token.num (JsNum.num 2),
        Token.op "*", Token.num (JsNum.num 2)]
      = JsVal.num (applyMulOp (Token.op "*")
          (applyMulOp (Token.op "/") (JsNum.num 8) (JsNum.num 2)) (JsNum.num 2)) ∧
    (∃ t, (tokenizeExpression "8/2*2").get? 1 = some t ∧ isMulOp t = true) := by
  have h1 := C6_multiplicative_tier.1 (-7) 3 (by decide)
  have h2 := C6_multiplicative_tier.2.1 (JsNum.num 8) (JsNum.num 2) (JsNum.num 2) "/" "*"
    (by decide) (by decide)
  have h3 := C6_multiplicative_tier.2.2.1 (tokenizeExpression "8/2*2") 1 (by decide)
  exact ⟨h1.2.2.1, h1.2.2.2.1 (by decide), h2, h3.1⟩

/-! ### The equation checker -/

theorem splitEq_ne_nil : ∀ l : List Char, splitEq l ≠ [] := by
  intro l
  cases l with
  | nil => simp [splitEq]
  | cons c rest =>
    by_cases hc : c = '='
    · simp [splitEq, hc]
    · simp only [splitEq, if_neg hc]
      cases h : splitEq rest <;> simp

theorem splitEq_length (l : List Char) : (splitEq l).length = l.count '=' + 1 := by
  induction l with
  | nil => rfl
  | cons c rest ih =>
    by_cases hc : c = '='
    · subst hc
      simp only [splitEq, if_pos rfl, List.length_cons, List.count_cons, ih]
      simp
      exact ih
    · simp only [splitEq, if_neg hc]
      cases h : splitEq rest with
      | nil => exact absurd h (splitEq_ne_nil rest)
      | cons p ps =>
        rw [h] at ih
        simp only [List.length_cons] at ih ⊢
        rw [List.count_cons]
        simp [hc]
        omega

/-- The checker's behaviour once the split produced exactly two non-empty
trimmed sides: evaluate both and run the NaN guard and tolerance comparison. -/
theorem evalEq_parts {s : String} {l r : List Char} (h : splitEq s.data = [l, r])
    (hl : jsTrim l ≠ []) (hr : jsTrim r ≠ []) :
    evaluateEquationString s =
      (if jsIsNaN (evaluateExpressionL (jsTrim l)) || jsIsNaN (evaluateExpressionL (jsTrim r))
       then false
       else JsNum.jlt (JsNum.jabs (JsNum.jsub (toNumJ (evaluateExpressionL (jsTrim l)))
              (toNumJ (evaluateExpressionL (jsTrim r))))) (JsNum.num tol)) := by
  unfold evaluateEquationString
  rw [h]
  simp [hl, hr]

/-- C7: `evaluateEquationString` splits on the equality symbol and returns
false whenever the input contains no `'='`, more than one `'='` (the split
then has other than exactly two parts), or a side that is empty after
trimming; `"5=5"` is accepted, `"5"` and `"=5"` are rejected. -/
theorem C7_split_contract :
    (∀ s : String, s.data.count '=' ≠ 1 → evaluateEquationString s = false) ∧
    (∀ (s : String) (l r : List Char), splitEq s.data = [l, r] →
      (jsTrim l = [] ∨ jsTrim r = []) → evaluateEquationString s = false) ∧
    evaluateEquationString "5=5" = true ∧
    evaluateEquationString "5" = false ∧
    evaluateEquationString "=5" = false := by
  refine ⟨?_, ?_, by decide, by decide, by decide⟩
  · intro s h
    have hlen : (splitEq s.data).length ≠ 2 := by
      rw [splitEq_length]
      omega
    cases hsp : splitEq s.data with
    | nil => exact absurd hsp (splitEq_ne_nil s.data)
    | cons p0 rest =>
      cases rest with
      | nil => simp [evaluateEquationString, hsp]
      | cons p1 rest2 =>
        cases rest2 with
        | nil =>
          exfalso
          apply hlen
          rw [hsp]
          rfl
        | cons p2 rest3 => simp [evaluateEquationString, hsp]
  · intro s l r h hemp
    unfold evaluateEquationString
    rw [h]
    rcases hemp with hemp | hemp <;> simp [hemp]

/-- C7 witness: the general parts applied at `"5=5=5"` (two equality symbols)
and at `"=5"` (an empty left side). -/
theorem C7_witness :
    evaluateEquationString "5=5=5" = false ∧
    evaluateEquationString "=5" = false ∧
    evaluateEquationString "5=5" = true :=
  ⟨C7_split_contract.1 "5=5=5" (by decide),
   C7_split_contract.2.1 "=5" [] ['5'] (by decide) (Or.inl (by decide)),
   C7_split_contract.2.2.1⟩

/-- C8: for an equation string whose split has exactly two non-empty trimmed
sides, the checker returns false if either side evaluates to the NaN sentinel,
otherwise compares `|left - right|` against the absolute tolerance `1e-9`;
a non-finite side (e.g. `"1/0"`) yields false without any exception. -/
theorem C8_checker_tolerance :
    (∀ (s : String) (l r : List Char), splitEq s.data = [l, r] →
      jsTrim l ≠ [] → jsTrim r ≠ [] →
      ((jsIsNaN (evaluateExpressionL (jsTrim l)) = true ∨
          jsIsNaN (evaluateExpressionL (jsTrim r)) = true) →
        evaluateEquationString s = false) ∧
      (∀ ql qr : ℚ, evaluateExpressionL (jsTrim l) = JsVal.num (JsNum.num ql) →
          evaluateExpressionL (jsTrim r) = JsVal.num (JsNum.num qr) →
        (evaluateEquationString s = true ↔ |ql - qr| < (1 : ℚ) / 1000000000)) ∧
      ((evaluateExpressionL (jsTrim l) = JsVal.num JsNum.inf ∨
          evaluateExpressionL (jsTrim l) = JsVal.num JsNum.ninf ∨
          evaluateExpressionL (jsTrim r) = JsVal.num JsNum.inf ∨
          evaluateExpressionL (jsTrim r) = JsVal.num JsNum.ninf) →
        evaluateEquationString s = false)) ∧
    evaluateEquationString "10-3+8=15" = true ∧
    evaluateEquationString "10-3+8=14" = false ∧
    evaluateEquationString "1/0=1/0" = false := by
  refine ⟨?_, by decide, by decide, by decide⟩
  intro s l r h hl hr
  rw [evalEq_parts h hl hr]
  refine ⟨?_, ?_, ?_⟩
  · intro hnan
    rcases hnan with hnan | hnan <;> simp [hnan]
  · intro ql qr hql hqr
    rw [hql, hqr]
    have htol : tol = (1 : ℚ) / 1000000000 := by
      rw [tol, Rat.divInt_eq_div]
      norm_num
    simp only [jsIsNaN, Bool.or_self, if_false, toNumJ, JsNum.jsub, JsNum.jneg, JsNum.jadd,
      JsNum.jabs, JsNum.jlt, qneg_eq, qadd_eq, qabs_eq, ← sub_eq_add_neg, htol]
    simp [decide_eq_true_eq]
  · intro hinf
    cases hvl : evaluateExpressionL (jsTrim l) with
    | undef => simp [hvl, jsIsNaN]
    | str t => simp [hvl, jsIsNaN]
    | num x =>
      cases hvr : evaluateExpressionL (jsTrim r) with
      | undef => simp [hvr, jsIsNaN]
      | str t => simp [hvr, jsIsNaN]
      | num y =>
        rw [hvl, hvr] at hinf
        cases x <;> cases y <;>
          simp_all [jsIsNaN, toNumJ, JsNum.jsub, JsNum.jneg, JsNum.jadd, JsNum.jabs, JsNum.jlt]

/-- C8 witness: the general part applied to `"1/0=5"` — the left side is
`Infinity` (non-finite) and the checker yields false — and to `"5=5"`, where
both sides are the finite number `5` and the tolerance test decides truth. -/
theorem C8_witness :
    evaluateEquationString "1/0=5" = false ∧
    (evaluateEquationString "5=5" = true ↔ |(5 : ℚ) - 5| < (1 : ℚ) / 1000000000) := by
  have h1 := C8_checker_tolerance.1 "1/0=5" ['1', '/', '0'] ['5'] (by decide) (by decide) (by decide)
  have h2 := C8_checker_tolerance.1 "5=5" ['5'] ['5'] (by decide) (by decide) (by decide)
  exact ⟨h1.2.2 (Or.inl (by decide)), h2.2.1 5 5 (by decide) (by decide)⟩

/-! ### Tokenizer: `parseFloat` on runs with several decimal points -/

theorem digits_prefix_split (l1 rest : List Char) (h : ∀ c ∈ l1, c.isDigit = true) :
    (l1 ++ '.' :: rest).takeWhile Char.isDigit = l1 ∧
    (l1 ++ '.' :: rest).dropWhile Char.isDigit = '.' :: rest := by
  induction l1 with
  | nil => constructor <;> simp [List.takeWhile_cons, List.dropWhile_cons]
  | cons c cs ih =>
    have hc : c.isDigit = true := h c (by simp)
    have ih' := ih (fun d hd => h d (by simp [hd]))
    constructor
    · simp [List.takeWhile_cons, hc, ih'.1]
    · simp [List.dropWhile_cons, hc, ih'.2]

theorem takeWhile_all_digits (l : List Char) (h : ∀ c ∈ l, c.isDigit = true) :
    l.takeWhile Char.isDigit = l := by
  induction l with
  | nil => rfl
  | cons c cs ih =>
    have hc : c.isDigit = true := h c (by simp)
    simp [List.takeWhile_cons, hc, ih (fun d hd => h d (by simp [hd]))]

/-- C10: a digit/decimal-point run with a second decimal point parses exactly
as its longest valid prefix — everything from the second point on is silently
dropped — so `"1.2.3"` tokenizes to the single number `1.2` (i.e. `6/5`); a
run of only dots parses to NaN, which is nevertheless pushed as a NUMBER
token and propagates NaN through evaluation (`"1+..."` evaluates to NaN). -/
theorem C10_parsefloat_truncation :
    (∀ l1 l2 l3 : List Char, l1 ≠ [] → (∀ c ∈ l1, c.isDigit = true) →
      (∀ c ∈ l2, c.isDigit = true) →
      parseFloatRun (l1 ++ '.' :: l2 ++ '.' :: l3) = parseFloatRun (l1 ++ '.' :: l2)) ∧
    (∀ l : List Char, l ≠ [] → (∀ c ∈ l, c = '.') → parseFloatRun l = JsNum.nan) ∧
    tokenizeExpression "1.2.3" = [Token.num (JsNum.num (Rat.divInt 6 5))] ∧
    tokenizeExpression "..." = [Token.num JsNum.nan] ∧
    evaluateExpression "1+..." = JsVal.num JsNum.nan := by
  refine ⟨?_, ?_, by decide, by decide, by decide⟩
  · intro l1 l2 l3 h1ne h1 h2
    obtain ⟨ht1, hd1⟩ := digits_prefix_split l1 (l2 ++ '.' :: l3) h1
    obtain ⟨ht2, hd2⟩ := digits_prefix_split l1 l2 h1
    obtain ⟨ht3, _⟩ := digits_prefix_split l2 l3 h2
    have ht4 : l2.takeWhile Char.isDigit = l2 := takeWhile_all_digits l2 h2
    simp only [List.cons_append, List.append_assoc] at *
    simp only [parseFloatRun, ht1, hd1, ht2, hd2, ht3, ht4]
  · intro l hne hdots
    cases l with
    | nil => exact absurd rfl hne
    | cons c rest =>
      have hc : c = '.' := hdots c (by simp)
      subst hc
      have hfp : rest.takeWhile Char.isDigit = [] := by
        cases rest with
        | nil => rfl
        | cons d rest2 =>
          have hd : d = '.' := hdots d (by simp)
          subst hd
          simp [List.takeWhile_cons]
      simp [parseFloatRun, List.takeWhile_cons, List.dropWhile_cons, hfp]

/-- C10 witness: the truncation equality at `"1.2.3"`'s run and the dots-only
run `"..."`. -/
theorem C10_witness :
    parseFloatRun (['1'] ++ '.' :: ['2'] ++ '.' :: ['3']) = parseFloatRun (['1'] ++ '.' :: ['2']) ∧
    parseFloatRun ['.', '.', '.'] = JsNum.nan :=
  ⟨C10_parsefloat_truncation.1 ['1'] ['2'] ['3'] (by decide) (by decide) (by decide),
   C10_parsefloat_truncation.2.1 ['.', '.', '.'] (by decide) (by decide)⟩

/-! ### Strict alternation (claim C4) -/

theorem altB_nil : altB [] = false := rfl

theorem altB_single (v : JsNum) : altB [Token.num v] = true := rfl

theorem altB_cons_cons (v : JsNum) (o : String) (rest : List Token) :
    altB (Token.num v :: Token.op o :: rest) = altB rest := rfl

theorem altB_op_head (o : String) (rest : List Token) : altB (Token.op o :: rest) = false := rfl

theorem altB_num_num (v w : JsNum) (rest : List Token) :
    altB (Token.num v :: Token.num w :: rest) = false := rfl

theorem altB_num_head (x y : JsNum) (l : List Token) :
    altB (Token.num x :: l) = altB (Token.num y :: l) := by
  cases l with
  | nil => rfl
  | cons t rest =>
    cases t with
    | num w => rfl
    | op o => rfl

theorem altB_cases {l : List Token} (h : altB l = true) :
    (∃ v, l = [Token.num v]) ∨
    (∃ v o l', l = Token.num v :: Token.op o :: l' ∧ altB l' = true) := by
  cases l with
  | nil => exact absurd h (by simp [altB_nil])
  | cons t rest =>
    cases t with
    | op o => exact absurd h (by simp [altB_op_head])
    | num v =>
      cases rest with
      | nil => exact Or.inl ⟨v, rfl⟩
      | cons t2 rest2 =>
        cases t2 with
        | num w => exact absurd h (by simp [altB_num_num])
        | op o => exact Or.inr ⟨v, o, rest2, rfl, by rw [← altB_cons_cons v o rest2]; exact h⟩

theorem numAt_cons2 (x y : Token) (ts : List Token) (i : ℤ) (h : 0 ≤ i) :
    numAt (x :: y :: ts) (i + 2) = numAt ts i := by
  unfold numAt
  rw [if_neg (by omega), if_neg (by omega)]
  have h2 : (i + 2).toNat = i.toNat + 2 := by omega
  rw [h2]
  rfl

theorem foldAt_cons2 (x y : Token) (ts : List Token) (idx : ℕ) (f : JsNum → JsNum → JsNum)
    (h : 3 ≤ idx) :
    foldAt (x :: y :: ts) idx f = (foldAt ts (idx - 2) f).map (fun l => x :: y :: l) := by
  obtain ⟨k, rfl⟩ : ∃ k, idx = k + 3 := ⟨idx - 3, by omega⟩
  have e1 : ((k + 3 : ℕ) : ℤ) - 1 = ((k : ℕ) : ℤ) + 2 := by push_cast; ring
  have e2 : ((k + 3 : ℕ) : ℤ) + 1 = ((k + 2 : ℕ) : ℤ) + 2 := by push_cast; ring
  have e3 : ((k + 3 - 2 : ℕ) : ℤ) - 1 = ((k : ℕ) : ℤ) := by
    rw [show k + 3 - 2 = k + 1 from by omega]
    push_cast
    ring
  have e4 : ((k + 3 - 2 : ℕ) : ℤ) + 1 = ((k + 2 : ℕ) : ℤ) := by
    rw [show k + 3 - 2 = k + 1 from by omega]
    push_cast
    ring
  unfold foldAt
  rw [e1, e2, e3, e4, numAt_cons2 x y ts ((k : ℕ) : ℤ) (by positivity),
    numAt_cons2 x y ts (((k + 2 : ℕ) : ℕ) : ℤ) (by positivity)]
  cases h1 : numAt ts ((k : ℕ) : ℤ) with
  | none => rfl
  | some a =>
    cases h2 : numAt ts (((k + 2 : ℕ) : ℕ) : ℤ) with
    | none => rfl
    | some b => rfl

/-- On a strictly alternating list, a fold at any operator position succeeds
(both neighbours are numbers) and the list stays strictly alternating. -/
theorem altB_fold {f : JsNum → JsNum → JsNum} :
    ∀ (n : ℕ) (ts : List Token), ts.length ≤ n → ∀ (idx : ℕ) (o : String),
      altB ts = true → ts.get? idx = some (Token.op o) →
      ∃ ts2, foldAt ts idx f = some ts2 ∧ altB ts2 = true := by
  intro n
  induction n with
  | zero =>
    intro ts hlen idx o halt _
    rcases altB_cases halt with ⟨v, rfl⟩ | ⟨v, o', l', rfl, _⟩ <;> simp at hlen
  | succ n ih =>
    intro ts hlen idx o halt hop
    rcases altB_cases halt with ⟨v, rfl⟩ | ⟨v, o', l', rfl, halt'⟩
    · cases idx with
      | zero => exact absurd hop (by simp)
      | succ k => exact absurd hop (by simp)
    · rcases altB_cases halt' with ⟨b, rfl⟩ | ⟨b, o2, l2, rfl, halt2⟩
      · -- ts = [num v, op o', num b]
        cases idx with
        | zero => exact absurd hop (by simp)
        | succ k =>
          cases k with
          | zero =>
            refine ⟨[Token.num (f v b)], ?_, altB_single _⟩
            rfl
          | succ k2 =>
            cases k2 with
            | zero => exact absurd hop (by simp)
            | succ k3 => exact absurd hop (by simp)
      · -- ts = num v :: op o' :: num b :: op o2 :: l2
        cases idx with
        | zero => exact absurd hop (by simp)
        | succ k =>
          cases k with
          | zero =>
            -- fold at the first operator
            cases hop
            refine ⟨Token.num (f v b) :: Token.op o2 :: l2, rfl, ?_⟩
            rw [altB_cons_cons]
            exact halt2
          | succ k2 =>
            -- the operator sits inside the tail
            have hop' : (Token.num b :: Token.op o2 :: l2).get? k2 = some (Token.op o) := hop
            have hk2 : 1 ≤ k2 := by
              cases k2 with
              | zero => exact absurd hop' (by simp)
              | succ _ => omega
            have hlen' : (Token.num b :: Token.op o2 :: l2).length ≤ n := by
              simp at hlen ⊢
              omega
            obtain ⟨rest2, hfold2, halt2'⟩ :=
              ih (Token.num b :: Token.op o2 :: l2) hlen' k2 o (by
                rw [altB_cons_cons]; exact halt2) hop'
            refine ⟨Token.num v :: Token.op o' :: rest2, ?_, ?_⟩
            · rw [foldAt_cons2 _ _ _ _ f (by omega : 3 ≤ k2 + 2),
                show k2 + 2 - 2 = k2 from by omega, hfold2]
              rfl
            · rw [altB_cons_cons]
              exact halt2'

/-- A finished pass leaves no operator its selector would still find. -/
theorem runPass_sel_none (sel : List Token → Option ℕ) (app : Token → JsNum → JsNum → JsNum) :
    ∀ fuel ts ts2, runPass sel app fuel ts = some ts2 → sel ts2 = none := by
  intro fuel
  induction fuel with
  | zero => intro ts ts2 h; exact absurd h (by simp [runPass])
  | succ n ih =>
    intro ts ts2 h
    unfold runPass at h
    split at h
    · cases h; assumption
    · split at h
      · exact ih _ _ h
      · exact absurd h (by simp)

/-- Folding introduces no operator token that was not already present. -/
theorem foldAt_ops {ts : List Token} {idx : ℕ} {f : JsNum → JsNum → JsNum} {ts2 : List Token}
    (h : foldAt ts idx f = some ts2) : ∀ o, Token.op o ∈ ts2 → Token.op o ∈ ts := by
  unfold foldAt at h
  split at h
  · cases h
    intro o ho
    rcases List.mem_append.mp ho with ho | ho
    · exact List.take_subset _ _ ho
    · rcases List.mem_cons.mp ho with ho | ho
      · exact absurd ho (by simp)
      · exact List.drop_subset _ _ ho
  · exact absurd h (by simp)

/-- A pass introduces no operator token that was not already present. -/
theorem runPass_ops (sel : List Token → Option ℕ) (app : Token → JsNum → JsNum → JsNum) :
    ∀ fuel ts ts2, runPass sel app fuel ts = some ts2 →
      ∀ o, Token.op o ∈ ts2 → Token.op o ∈ ts := by
  intro fuel
  induction fuel with
  | zero => intro ts ts2 h; exact absurd h (by simp [runPass])
  | succ n ih =>
    intro ts ts2 h
    unfold runPass at h
    split at h
    · cases h; exact fun _ h => h
    · rename_i idx hsel
      split at h
      · rename_i tsf hfold
        intro o ho
        exact foldAt_ops hfold o (ih _ _ h o ho)
      · exact absurd h (by simp)

/-- On an alternating input, a whole pass (with sufficient fuel) succeeds and
preserves alternation, provided its selector only ever picks operators. -/
theorem runPass_alt (sel : List Token → Option ℕ) (app : Token → JsNum → JsNum → JsNum)
    (hsel : ∀ ts idx, sel ts = some idx → ∃ o, ts.get? idx = some (Token.op o)) :
    ∀ fuel ts, ts.length < fuel → altB ts = true →
      ∃ ts2, runPass sel app fuel ts = some ts2 ∧ altB ts2 = true := by
  intro fuel
  induction fuel with
  | zero => intro ts h; omega
  | succ n ih =>
    intro ts hlen halt
    unfold runPass
    cases hse : sel ts with
    | none => exact ⟨ts, by simp, halt⟩
    | some idx =>
      obtain ⟨o, hop⟩ := hsel ts idx hse
      obtain ⟨tsf, hfold, haltf⟩ :=
        @altB_fold (app (ts.getD idx (Token.op ""))) ts.length ts le_rfl idx o halt hop
      simp only [hse, hfold]
      have hlenf := (foldAt_shape hfold).2.2
      exact ih tsf (by omega) haltf

theorem flushRun_no_ops (acc : List Char) : ∀ o, Token.op o ∉ flushRun acc := by
  intro o ho
  unfold flushRun at ho
  split at ho <;> simp at ho

/-- Every operator the tokenizer emits is one of the seven source operators. -/
theorem tokAux_ops : ∀ (n : ℕ) (l : List Char), l.length ≤ n → ∀ (acc : List Char) (o : String),
    Token.op o ∈ tokAux acc l →
    o = "+" ∨ o = "-" ∨ o = "*" ∨ o = "/" ∨ o = "//" ∨ o = "**" ∨ o = "%" := by
  intro n
  induction n with
  | zero =>
    intro l hlen acc o ho
    cases l with
    | nil => exact absurd ho (flushRun_no_ops acc o)
    | cons c rest => simp at hlen
  | succ n ih =>
    intro l hlen acc o ho
    cases l with
    | nil => exact absurd ho (flushRun_no_ops acc o)
    | cons c rest =>
      cases rest with
      | nil =>
        unfold tokAux at ho
        split at ho
        · exact absurd ho (flushRun_no_ops _ o)
        · rcases List.mem_append.mp ho with ho | ho
          · exact absurd ho (flushRun_no_ops _ o)
          · split at ho
            · rename_i hcond
              simp only [Bool.or_eq_true, decide_eq_true_eq, or_assoc] at hcond
              obtain rfl : o = String.mk [c] := by simpa using List.mem_singleton.mp ho
              rcases hcond with rfl | rfl | rfl | rfl | rfl
              · exact Or.inl rfl
              · exact Or.inr (Or.inl rfl)
              · exact Or.inr (Or.inr (Or.inl rfl))
              · exact Or.inr (Or.inr (Or.inr (Or.inl rfl)))
              · exact Or.inr (Or.inr (Or.inr (Or.inr (Or.inr (Or.inr rfl)))))
            · exact absurd ho (by simp)
      | cons d rest2 =>
        have hlen2 : (d :: rest2).length ≤ n := by
          simp at hlen ⊢
          omega
        have hlen3 : rest2.length ≤ n := by
          simp at hlen2
          omega
        unfold tokAux at ho
        split at ho
        · exact ih _ hlen2 _ o ho
        · rcases List.mem_append.mp ho with ho | ho
          · exact absurd ho (flushRun_no_ops _ o)
          · split at ho
            · rcases List.mem_cons.mp ho with ho | ho
              · cases ho
                exact Or.inr (Or.inr (Or.inr (Or.inr (Or.inl rfl))))
              · exact ih _ hlen3 _ o ho
            · split at ho
              · rcases List.mem_cons.mp ho with ho | ho
                · cases ho
                  exact Or.inr (Or.inr (Or.inr (Or.inr (Or.inr (Or.inl rfl)))))
                · exact ih _ hlen3 _ o ho
              · split at ho
                · rename_i hcond
                  simp only [Bool.or_eq_true, decide_eq_true_eq, or_assoc] at hcond
                  rcases List.mem_cons.mp ho with ho | ho
                  · obtain rfl : o = String.mk [c] := by simpa using ho
                    rcases hcond with rfl | rfl | rfl | rfl | rfl
                    · exact Or.inl rfl
                    · exact Or.inr (Or.inl rfl)
                    · exact Or.inr (Or.inr (Or.inl rfl))
                    · exact Or.inr (Or.inr (Or.inr (Or.inl rfl)))
                    · exact Or.inr (Or.inr (Or.inr (Or.inr (Or.inr (Or.inr rfl)))))
                  · exact ih _ hlen2 _ o ho
                · exact ih _ hlen2 _ o ho

theorem isAddOp_iff {t : Token} :
    isAddOp t = true ↔ t = Token.op "+" ∨ t = Token.op "-" := by
  cases t with
  | num v => simp [isAddOp]
  | op s => simp [isAddOp]

theorem powSel_op : ∀ (ts : List Token) (idx : ℕ), powSel ts = some idx →
    ∃ o, ts.get? idx = some (Token.op o) := by
  intro ts idx h
  obtain ⟨t, hget, hp⟩ := lastIdx_get h
  rw [isPowOp_iff.mp hp] at hget
  exact ⟨"**", hget⟩

theorem mulSel_op : ∀ (ts : List Token) (idx : ℕ), mulSel ts = some idx →
    ∃ o, ts.get? idx = some (Token.op o) := by
  intro ts idx h
  obtain ⟨t, hget, hp⟩ := firstIdx_get h
  rcases isMulOp_iff.mp hp with rfl | rfl | rfl | rfl <;> exact ⟨_, hget⟩

theorem addSel_op : ∀ (ts : List Token) (idx : ℕ), addSel ts = some idx →
    ∃ o, ts.get? idx = some (Token.op o) := by
  intro ts idx h
  obtain ⟨t, hget, hp⟩ := firstIdx_get h
  rcases isAddOp_iff.mp hp with rfl | rfl <;> exact ⟨_, hget⟩

/-- C4 (amended): `evaluateExpression` returns the NaN sentinel on an empty
token sequence and whenever reduction fails (a fold step meets an operator
with a missing or non-numeric operand — something only possible when the
tokens do not strictly alternate); a single bare numeric literal is returned
directly without entering the fold passes; and on every STRICTLY ALTERNATING
sequence the three passes succeed, leaving exactly one numeric value, which
is returned.  (The original claim's converse — NaN on EVERY non-alternating
sequence — is false: see the counterexample, where `[3, 4]` reduces to `3`.) -/
theorem C4_evaluator_contract :
    evaluateTokens [] = JsVal.num JsNum.nan ∧
    (∀ v, evaluateTokens [Token.num v] = JsVal.num v) ∧
    (∀ ts : List Token, runPasses ts = none → evaluateTokens ts = JsVal.num JsNum.nan) ∧
    (∀ s : String, altB (tokenizeExpression s) = true →
      ∃ v, runPasses (tokenizeExpression s) = some [Token.num v] ∧
        evaluateExpression s = JsVal.num v) := by
  refine ⟨rfl, fun v => rfl, ?_, ?_⟩
  · intro ts h
    cases ts with
    | nil => exact absurd h (by decide)
    | cons t rest =>
      cases rest with
      | nil =>
        cases t with
        | num v => exact absurd h (by rw [show runPasses [Token.num v] = some [Token.num v] from rfl]; simp)
        | op o =>
          have harm : evaluateTokens [Token.op o] =
              match runPasses [Token.op o] with
              | none => JsVal.num JsNum.nan
              | some final => tokenVal final.head? := rfl
          rw [harm, h]
      | cons t2 rest2 =>
        have harm : evaluateTokens (t :: t2 :: rest2) =
            match runPasses (t :: t2 :: rest2) with
            | none => JsVal.num JsNum.nan
            | some final => tokenVal final.head? := by
          cases t <;> rfl
        rw [harm, h]
  · intro s halt
    have hops7 : ∀ o, Token.op o ∈ tokenizeExpression s →
        o = "+" ∨ o = "-" ∨ o = "*" ∨ o = "/" ∨ o = "//" ∨ o = "**" ∨ o = "%" := by
      intro o ho
      have ho' : Token.op o ∈ tokAux [] (s.data.filter (fun c => !c.isWhitespace)) := ho
      exact tokAux_ops (s.data.filter (fun c => !c.isWhitespace)).length _ le_rfl [] o ho' 
    obtain ⟨ts1, h1, halt1⟩ := runPass_alt powSel (fun _ a b => JsNum.jpow a b) powSel_op
      ((tokenizeExpression s).length + 1) (tokenizeExpression s) (by omega) halt
    obtain ⟨ts2, h2, halt2⟩ := runPass_alt mulSel applyMulOp mulSel_op
      (ts1.length + 1) ts1 (by omega) halt1
    obtain ⟨ts3, h3, halt3⟩ := runPass_alt addSel applyAddOp addSel_op
      (ts2.length + 1) ts2 (by omega) halt2
    have hrp : runPasses (tokenizeExpression s) = some ts3 := by
      show (powPass (tokenizeExpression s)).bind (fun t => (mulPass t).bind addPass) = some ts3
      rw [show powPass (tokenizeExpression s) = some ts1 from h1]
      show (mulPass ts1).bind addPass = some ts3
      rw [show mulPass ts1 = some ts2 from h2]
      show addPass ts2 = some ts3
      exact h3
    have hop3 : ∀ o, Token.op o ∉ ts3 := by
      intro o ho
      have ho2 : Token.op o ∈ ts2 := runPass_ops addSel applyAddOp _ _ _ h3 o ho
      have ho1 : Token.op o ∈ ts1 := runPass_ops mulSel applyMulOp _ _ _ h2 o ho2
      have ho0 : Token.op o ∈ tokenizeExpression s :=
        runPass_ops powSel (fun _ a b => JsNum.jpow a b) _ _ _ h1 o ho1
      have hnp : isPowOp (Token.op o) = false :=
        lastIdx_none (runPass_sel_none powSel _ _ _ _ h1) _ ho1
      have hnm : isMulOp (Token.op o) = false :=
        firstIdx_none (runPass_sel_none mulSel _ _ _ _ h2) _ ho2
      have hna : isAddOp (Token.op o) = false :=
        firstIdx_none (runPass_sel_none addSel _ _ _ _ h3) _ ho
      rcases hops7 o ho0 with rfl | rfl | rfl | rfl | rfl | rfl | rfl <;>
        simp [isPowOp, isMulOp, isAddOp] at hnp hnm hna
    obtain ⟨v, rfl⟩ : ∃ v, ts3 = [Token.num v] := by
      rcases altB_cases halt3 with ⟨v, hv⟩ | ⟨v, o, l', hv, _⟩
      · exact ⟨v, hv⟩
      · exact absurd (by rw [hv]; simp : Token.op o ∈ ts3) (hop3 o)
    refine ⟨v, hrp, ?_⟩
    show evaluateTokens (tokenizeExpression s) = JsVal.num v
    cases hshape : tokenizeExpression s with
    | nil => rw [hshape] at halt; exact absurd halt (by decide)
    | cons t rest =>
      rw [hshape] at hrp
      cases rest with
      | nil =>
        cases t with
        | num w =>
          rw [show runPasses [Token.num w] = some [Token.num w] from rfl] at hrp
          have : w = v := by simpa using hrp
          subst this
          rfl
        | op o =>
          rw [hshape] at halt
          exact absurd halt (by simp [altB_op_head])
      | cons t2 rest2 =>
        show evaluateTokens (t :: t2 :: rest2) = JsVal.num v
        have harm : evaluateTokens (t :: t2 :: rest2) =
            match runPasses (t :: t2 :: rest2) with
            | none => JsVal.num JsNum.nan
            | some final => tokenVal final.head? := by
          cases t <;> rfl
        rw [harm, hrp]
        rfl

/-- C4 counterexample: the tokens of `"3a4"` are `[3, 4]` — not strictly
alternating (the unrecognised `a` is skipped) — yet `evaluateExpression`
returns `3`, not the NaN sentinel the original claim requires for every
non-alternating sequence: no reduction loop ever fires, and the final
`return tokens[0]` yields the first number. -/
theorem C4_counterexample :
    altB (tokenizeExpression "3a4") = false ∧
    evaluateExpression "3a4" = JsVal.num (JsNum.num 3) ∧
    evaluateExpression "3a4" ≠ JsVal.num JsNum.nan := by
  refine ⟨by decide, by decide, by decide⟩

/-- C4 witness: a strictly alternating input reduces to a single returned
value, and a failing reduction (`"3+"`, whose `+` lacks a right operand)
returns NaN. -/
theorem C4_witness :
    (∃ v, runPasses (tokenizeExpression "1+2") = some [Token.num v] ∧
      evaluateExpression "1+2" = JsVal.num v) ∧
    evaluateTokens (tokenizeExpression "3+") = JsVal.num JsNum.nan :=
  ⟨C4_evaluator_contract.2.2.2 "1+2" (by decide),
   C4_evaluator_contract.2.2.1 (tokenizeExpression "3+") (by decide)⟩

/-! ### Grading pass: membership and counting lemmas -/

theorem mem_fold_dedup (l : List ℕ) :
    ∀ (acc : List ℕ) (i : ℕ),
      i ∈ l.foldl (fun acc j => if j ∈ acc then acc else acc ++ [j]) acc ↔ i ∈ acc ∨ i ∈ l := by
  induction l with
  | nil => intro acc i; simp
  | cons j l' ih =>
    intro acc i
    rw [List.foldl_cons]
    by_cases hj : j ∈ acc
    · rw [if_pos hj, ih]
      constructor
      · rintro (h | h)
        · exact Or.inl h
        · exact Or.inr (List.mem_cons_of_mem _ h)
      · rintro (h | h)
        · exact Or.inl h
        · rcases List.mem_cons.mp h with rfl | h
          · exact Or.inl hj
          · exact Or.inr h
    · rw [if_neg hj, ih]
      constructor
      · rintro (h | h)
        · rcases List.mem_append.mp h with h | h
          · exact Or.inl h
          · simp only [List.mem_singleton] at h
            subst h
            exact Or.inr (List.mem_cons_self _ _)
        · exact Or.inr (List.mem_cons_of_mem _ h)
      · rintro (h | h)
        · exact Or.inl (List.mem_append.mpr (Or.inl h))
        · rcases List.mem_cons.mp h with rfl | h
          · exact Or.inl (List.mem_append.mpr (Or.inr (by simp)))
          · exact Or.inr h

/-- An input is tracked by the pass (`allUnknownInputs`) exactly when it is an
unknown cell of at least one evaluable group. -/
theorem mem_allUnknownIdx {fields : List InputField} {i : ℕ} :
    i ∈ allUnknownIdx fields ↔ ∃ k ∈ evaluableKeys fields, i ∈ groupUnknowns fields k := by
  unfold allUnknownIdx
  rw [mem_fold_dedup]
  simp only [List.mem_flatten, List.mem_map, List.not_mem_nil, false_or]
  constructor
  · rintro ⟨l, ⟨k, hk, rfl⟩, hi⟩
    exact ⟨k, hk, hi⟩
  · rintro ⟨k, hk, hi⟩
    exact ⟨groupUnknowns fields k, ⟨k, hk, rfl⟩, hi⟩

theorem groupUnknowns_unknown {fields : List InputField} {k : String} {i : ℕ}
    (h : i ∈ groupUnknowns fields k) : (fields.getD i dfltField).unknown = true :=
  (List.mem_filter.mp h).2

theorem mapSet_vals {m : List (String × ℕ)} {k : String} {v : ℕ} :
    ∀ p ∈ mapSet m k v, p ∈ m ∨ p.2 = v := by
  intro p hp
  unfold mapSet at hp
  split at hp
  · rcases List.mem_map.mp hp with ⟨q, hq, hpq⟩
    by_cases hqk : q.1 = k
    · rw [if_pos hqk] at hpq
      exact Or.inr (by rw [← hpq])
    · rw [if_neg hqk] at hpq
      exact Or.inl (hpq ▸ hq)
  · rcases List.mem_append.mp hp with hp | hp
    · exact Or.inl hp
    · simp only [List.mem_singleton] at hp
      exact Or.inr (by rw [hp])

/-- Every index stored in the id-to-input map is an index into the snapshot. -/
theorem map_vals_lt (fields : List InputField) :
    ∀ p ∈ equationIdToInputMap fields, p.2 < fields.length := by
  unfold equationIdToInputMap
  have main : ∀ (l : List (ℕ × InputField)), (∀ q ∈ l, q.1 < fields.length) →
      ∀ (m : List (String × ℕ)), (∀ p ∈ m, p.2 < fields.length) →
      ∀ p ∈ l.foldl
        (fun m p =>
          let eq := jsTrimS p.2.equation
          if eq = "" then m
          else
            (splitWsRaw eq.data).foldl
              (fun m idc =>
                let key := jsTrim idc
                if key = [] then m else mapSet m (String.mk key) p.1)
              m)
        m, p.2 < fields.length := by
    intro l
    induction l with
    | nil => intro _ m hm p hp; exact hm p hp
    | cons q l' ih =>
      intro hl m hm p hp
      rw [List.foldl_cons] at hp
      refine ih (fun q hq => hl q (List.mem_cons_of_mem _ hq)) _ ?_ p hp
      intro p2 hp2
      by_cases he : jsTrimS q.2.equation = ""
      · simp only [he, if_pos] at hp2
        exact hm p2 (by simpa using hp2)
      · simp only [if_neg he] at hp2
        have inner : ∀ (ids : List (List Char)) (m0 : List (String × ℕ)),
            (∀ p ∈ m0, p.2 < fields.length) →
            ∀ p ∈ ids.foldl
              (fun m idc =>
                let key := jsTrim idc
                if key = [] then m else mapSet m (String.mk key) q.1) m0,
              p.2 < fields.length := by
          intro ids
          induction ids with
          | nil => intro m0 hm0 p hp0; exact hm0 p hp0
          | cons idc ids' ihids =>
            intro m0 hm0 p hp0
            rw [List.foldl_cons] at hp0
            refine ihids _ ?_ p hp0
            intro p3 hp3
            by_cases hk : jsTrim idc = []
            · simp only [hk, if_pos] at hp3
              exact hm0 p3 (by simpa using hp3)
            · simp only [if_neg hk] at hp3
              rcases mapSet_vals p3 hp3 with hmem | hval
              · exact hm0 p3 hmem
              · rw [hval]
                exact hl q (List.mem_cons_self _ _)
        exact inner _ _ hm p2 hp2
  intro p hp
  refine main fields.enum ?_ [] (by simp) p hp
  intro q hq
  have := List.mem_enum_iff_getElem?.mp hq
  exact (List.getElem?_eq_some.mp this).1

theorem groupCells_lt {fields : List InputField} {k : String} {i : ℕ}
    (h : i ∈ groupCells fields k) : i < fields.length := by
  unfold groupCells at h
  rcases List.mem_filterMap.mp h with ⟨id, _, hid⟩
  unfold mapGet at hid
  rcases Option.map_eq_some'.mp hid with ⟨p, hfind, hp2⟩
  have hmem := List.mem_of_find?_eq_some hfind
  rw [← hp2]
  exact map_vals_lt fields p hmem

theorem groupUnknowns_lt {fields : List InputField} {k : String} {i : ℕ}
    (h : i ∈ groupUnknowns fields k) : i < fields.length :=
  groupCells_lt (List.mem_filter.mp h).1

/-- A tracked input's `totalCount` is at least 1. -/
theorem totalCount_pos {fields : List InputField} {k : String} {i : ℕ}
    (hk : k ∈ evaluableKeys fields) (hi : i ∈ groupUnknowns fields k) :
    1 ≤ totalCount fields i := by
  unfold totalCount
  have hmem : (groupUnknowns fields k).count i ∈
      (evaluableKeys fields).map (fun k => (groupUnknowns fields k).count i) :=
    List.mem_map.mpr ⟨k, hk, rfl⟩
  calc 1 ≤ (groupUnknowns fields k).count i := List.count_pos_iff.mpr hi
    _ ≤ _ := List.le_sum_of_mem hmem

theorem sum_map_filter_le (l : List String) (p : String → Bool) (g : String → ℕ) :
    ((l.filter p).map g).sum ≤ (l.map g).sum := by
  induction l with
  | nil => simp
  | cons a l' ih =>
    by_cases hp : p a
    · simp only [List.filter_cons, hp, if_pos, List.map_cons, List.sum_cons]
      omega
    · simp only [List.filter_cons, hp, Bool.false_eq_true, if_neg, List.map_cons, List.sum_cons,
        not_false_iff]
      omega

/-- `correctCount` never exceeds `totalCount`: the correct groups are a
sub-collection of the counted groups. -/
theorem correct_le_total (fields : List InputField) (i : ℕ) :
    correctCount fields i ≤ totalCount fields i :=
  sum_map_filter_le (evaluableKeys fields) (groupCorrect fields) _

/-- C1 counterexample: a snapshot with a single unknown field `"1a"` holding
`"7"`, whose group's assembled string has no `'='`.  The field is unknown and
non-empty with `correctCount = totalCount = 0`, so the claim's verdict is
true — but `computeEquations` tracks no input at all and returns false. -/
theorem C1_counterexample :
    computeEquations [⟨"7", "", true, "1a"⟩] = false ∧
    claimC1Verdict [⟨"7", "", true, "1a"⟩] = true :=
  ⟨by decide, by decide⟩

/-- C1 (amended): the verdict is true iff at least one unknown field belongs
to an evaluable group (one whose assembled string contains `'='`), and every
unknown field belonging to at least one evaluable group has non-empty trimmed
text and `correctCount = totalCount`.  A snapshot whose fields include no
unknowns at all is never solved. -/
theorem C1_verdict_characterization :
    ∀ fields : List InputField,
      (computeEquations fields = true ↔
        ((∃ i, ∃ k ∈ evaluableKeys fields, i ∈ groupUnknowns fields k) ∧
          ∀ i, (∃ k ∈ evaluableKeys fields, i ∈ groupUnknowns fields k) →
            jsTrim (fields.getD i dfltField).value.data ≠ [] ∧
            correctCount fields i = totalCount fields i)) ∧
      ((∀ i, i < fields.length → (fields.getD i dfltField).unknown = false) →
        computeEquations fields = false) := by
  intro fields
  have hP : ∀ i : ℕ,
      ((if jsTrim (fields.getD i dfltField).value.data = [] then false
        else (correctCount fields i == totalCount fields i)) = true) ↔
      (jsTrim (fields.getD i dfltField).value.data ≠ [] ∧
        correctCount fields i = totalCount fields i) := by
    intro i
    by_cases h : jsTrim (fields.getD i dfltField).value.data = []
    · simp [h]
    · simp [h]
  constructor
  · constructor
    · intro h
      rw [computeEquations, Bool.and_eq_true, List.all_eq_true] at h
      obtain ⟨hne, hall⟩ := h
      have hne' : allUnknownIdx fields ≠ [] := by
        intro hnil
        rw [hnil] at hne
        simp at hne
      constructor
      · obtain ⟨i, hi⟩ := List.exists_mem_of_ne_nil _ hne'
        exact ⟨i, mem_allUnknownIdx.mp hi⟩
      · intro i hex
        exact (hP i).mp (hall _ (mem_allUnknownIdx.mpr hex))
    · rintro ⟨⟨i0, hex0⟩, hall⟩
      rw [computeEquations, Bool.and_eq_true, List.all_eq_true]
      constructor
      · have hm : i0 ∈ allUnknownIdx fields := mem_allUnknownIdx.mpr hex0
        cases hnil : allUnknownIdx fields with
        | nil => rw [hnil] at hm; simp at hm
        | cons a l => simp [hnil]
      · intro i hi
        exact (hP i).mpr (hall i (mem_allUnknownIdx.mp hi))
  · intro hnone
    have hempty : allUnknownIdx fields = [] := by
      cases hnil : allUnknownIdx fields with
      | nil => rfl
      | cons a l =>
        exfalso
        have ha : a ∈ allUnknownIdx fields := by rw [hnil]; simp
        obtain ⟨k, hk, hu⟩ := mem_allUnknownIdx.mp ha
        have h1 := groupUnknowns_unknown hu
        rw [hnone a (groupUnknowns_lt hu)] at h1
        exact absurd h1 (by simp)
    rw [computeEquations, hempty]
    rfl

/-- C1 witness: the amended right-hand side holds at a solved snapshot
(an unknown `"1a"` holding `"5"` next to a disabled `"1b"` showing `"=5"`),
obtained by applying the characterization to `computeEquations = true`. -/
theorem C1_witness :
    (∃ i, ∃ k ∈ evaluableKeys [⟨"5", "", true, "1a"⟩, ⟨"", "=5", false, "1b"⟩],
        i ∈ groupUnknowns [⟨"5", "", true, "1a"⟩, ⟨"", "=5", false, "1b"⟩] k) ∧
      ∀ i, (∃ k ∈ evaluableKeys [⟨"5", "", true, "1a"⟩, ⟨"", "=5", false, "1b"⟩],
          i ∈ groupUnknowns [⟨"5", "", true, "1a"⟩, ⟨"", "=5", false, "1b"⟩] k) →
        jsTrim (([⟨"5", "", true, "1a"⟩, ⟨"", "=5", false, "1b"⟩] :
            List InputField).getD i dfltField).value.data ≠ [] ∧
        correctCount [⟨"5", "", true, "1a"⟩, ⟨"", "=5", false, "1b"⟩] i
          = totalCount [⟨"5", "", true, "1a"⟩, ⟨"", "=5", false, "1b"⟩] i :=
  (C1_verdict_characterization [⟨"5", "", true, "1a"⟩, ⟨"", "=5", false, "1b"⟩]).1.mp (by decide)

/-- C2: for an unknown field with non-empty trimmed text belonging to at
least one evaluable group, the assigned status is green iff
`correctCount = totalCount`, red iff `correctCount = 0`, and orange otherwise
(equivalently `0 < correctCount < totalCount`) — so a field shared between
one correct and one incorrect equation is orange, never green or red. -/
theorem C2_status_trichotomy :
    ∀ (fields : List InputField) (i : ℕ) (k : String),
      k ∈ evaluableKeys fields → i ∈ groupUnknowns fields k →
      jsTrim (fields.getD i dfltField).value.data ≠ [] →
      (statusAt fields i = some Status.green ↔
          correctCount fields i = totalCount fields i) ∧
      (statusAt fields i = some Status.red ↔ correctCount fields i = 0) ∧
      (statusAt fields i = some Status.orange ↔
          0 < correctCount fields i ∧ correctCount fields i < totalCount fields i) ∧
      renderColor Status.green = "green" ∧ renderColor Status.red = "red" ∧
      renderColor Status.orange = "orange" := by
  intro fields i k hk hi hne
  have hmem : i ∈ allUnknownIdx fields := mem_allUnknownIdx.mpr ⟨k, hk, hi⟩
  have ht : 1 ≤ totalCount fields i := totalCount_pos hk hi
  have hct : correctCount fields i ≤ totalCount fields i := correct_le_total fields i
  have hstat : statusAt fields i = some (fieldStatus fields i) := by
    unfold statusAt
    rw [if_pos hmem]
  have hfs : fieldStatus fields i =
      (if correctCount fields i = totalCount fields i then Status.green
       else if correctCount fields i = 0 then Status.red else Status.orange) := by
    unfold fieldStatus
    rw [if_neg hne, if_neg (by omega : ¬ totalCount fields i = 0)]
  rw [hstat, hfs]
  refine ⟨?_, ?_, ?_, rfl, rfl, rfl⟩
  · by_cases h : correctCount fields i = totalCount fields i
    · simp [h]
    · rcases eq_or_ne (correctCount fields i) 0 with h0 | h0 <;> simp [h, h0]
  · by_cases h : correctCount fields i = totalCount fields i
    · rw [if_pos h]
      constructor
      · intro hcon
        exact absurd hcon (by simp)
      · intro h0
        omega
    · rcases eq_or_ne (correctCount fields i) 0 with h0 | h0
      · rw [if_neg h, if_pos h0]
        simp [h0]
      · rw [if_neg h, if_neg h0]
        simp [h0]
  · by_cases h : correctCount fields i = totalCount fields i
    · rw [if_pos h]
      constructor
      · intro hcon
        exact absurd hcon (by simp)
      · intro h0
        omega
    · rcases eq_or_ne (correctCount fields i) 0 with h0 | h0
      · rw [if_neg h, if_pos h0]
        constructor
        · intro hcon
          exact absurd hcon (by simp)
        · intro h0'
          omega
      · rw [if_neg h, if_neg h0]
        constructor
        · intro
          omega
        · intro
          rfl

/-- C2 witness: the shared field tagged `"1c 2a"` holding `"2"` completes
`"1+1=2"` (correct) and `"2+1=4"` (incorrect): `correctCount 1` of
`totalCount 2` gives status orange. -/
theorem C2_witness :
    statusAt [⟨"2", "", true, "1c 2a"⟩, ⟨"", "1+1=", false, "1a"⟩,
        ⟨"", "+1=4", false, "2b"⟩] 0 = some Status.orange ∧
    renderColor Status.orange = "orange" := by
  have h := C2_status_trichotomy
    [⟨"2", "", true, "1c 2a"⟩, ⟨"", "1+1=", false, "1a"⟩, ⟨"", "+1=4", false, "2b"⟩]
    0 "1" (by decide) (by decide) (by decide)
  exact ⟨h.2.2.1.mpr (by decide), h.2.2.2.2.2⟩

/-- C3 counterexample: an unknown field with empty text whose only group
assembles to a string without `'='`: the grading pass never touches it, so
no status — in particular not `empty` — is assigned, contradicting the
claim's "regardless of which equation groups the field belongs to". -/
theorem C3_counterexample :
    (([⟨"", "", true, "1a"⟩] : List InputField).getD 0 dfltField).unknown = true ∧
    jsTrim (([⟨"", "", true, "1a"⟩] : List InputField).getD 0 dfltField).value.data = [] ∧
    statusAt [⟨"", "", true, "1a"⟩] 0 = none ∧
    statusAt [⟨"", "", true, "1a"⟩] 0 ≠ some Status.empty :=
  ⟨by decide, by decide, by decide, by decide⟩

/-- C3 (amended): for every unknown field the pass tracks — i.e. belonging to
at least one evaluable group — empty trimmed text yields status `empty`,
rendered red, regardless of any group's correctness (no other hypothesis on
the snapshot is needed). -/
theorem C3_empty_field_status :
    ∀ (fields : List InputField) (i : ℕ) (k : String),
      k ∈ evaluableKeys fields → i ∈ groupUnknowns fields k →
      jsTrim (fields.getD i dfltField).value.data = [] →
      statusAt fields i = some Status.empty ∧ renderColor Status.empty = "red" := by
  intro fields i k hk hi he
  refine ⟨?_, rfl⟩
  unfold statusAt
  rw [if_pos (mem_allUnknownIdx.mpr ⟨k, hk, hi⟩)]
  unfold fieldStatus
  rw [if_pos he]

/-- C3 witness: an empty unknown field of the evaluable group `"1"`
(the disabled neighbour shows `"1=1"`, so the group is even fully correct)
is assigned status `empty`, rendered red. -/
theorem C3_witness :
    statusAt [⟨"", "", true, "1a"⟩, ⟨"", "1=1", false, "1b"⟩] 0 = some Status.empty ∧
    renderColor Status.empty = "red" :=
  C3_empty_field_status [⟨"", "", true, "1a"⟩, ⟨"", "1=1", false, "1b"⟩] 0 "1"
    (by decide) (by decide) (by decide)
